import Mathlib

/-!
Verification of the rust-rocket sync tracker client (src/src).

Embedding conventions: Rust `f32` values are modelled as exact rationals
(`ℚ`) in the track mathematics, and as raw 32-bit patterns (`ℕ`) where the
wire decoder stores them verbatim; `u32` row numbers are modelled as `ℕ`,
with the saturating `as u32` cast made explicit; Rust `String` track names
are modelled as opaque identifiers (`ℕ`) compared by equality; fallible or
panicking code paths return `Option`.
-/

namespace Rocket

/-- The `Interpolation` enumeration from src/interpolation.rs. -/
inductive Interpolation where
  | step
  | linear
  | smooth
  | ramp
deriving DecidableEq, Repr, Inhabited

/-- `Interpolation::interpolate` from src/interpolation.rs; `t.powi(2)` is `t * t`. -/
def Interpolation.interpolate : Interpolation → ℚ → ℚ
  | .step, _ => 0
  | .linear, t => t
  | .smooth, t => t * t * (3 - 2 * t)
  | .ramp, t => t * t

/-- `impl From<u8> for Interpolation` from src/interpolation.rs: bytes 0..3 decode
to the four kinds, anything else decodes to `Step`. -/
def interpolationOfByte (raw : ℕ) : Interpolation :=
  match raw with
  | 0 => Interpolation.step
  | 1 => Interpolation.linear
  | 2 => Interpolation.smooth
  | 3 => Interpolation.ramp
  | _ => Interpolation.step

/-- The `Key` type from src/track.rs, generic over the representation of the
`f32` value field (`ℚ` for track mathematics, `ℕ` bit patterns on the wire side). -/
structure Key (α : Type) where
  row : ℕ
  value : α
  interpolation : Interpolation
deriving DecidableEq, Repr

/-- The `Track` type from src/track.rs: a name and a list of keys. -/
structure Track (α : Type) where
  name : ℕ
  keys : List (Key α)
deriving DecidableEq, Repr

/-- `Track::get_exact_position`: index of the key whose row equals `row`. -/
def Track.get_exact_position {α : Type} (t : Track α) (row : ℕ) : Option ℕ :=
  t.keys.findIdx? (fun k => k.row == row)

/-- `Track::get_insert_position`: index of the first key whose row is `≥ row`. -/
def Track.get_insert_position {α : Type} (t : Track α) (row : ℕ) : Option ℕ :=
  t.keys.findIdx? (fun k => decide (row ≤ k.row))

/-- `Track::get_lower_bound_position`: Rust computes
`keys.iter().position(|k| k.row > row).unwrap_or(len) - 1` in `usize`;
`List.findIdx` returns the length when no element matches, which is exactly
`unwrap_or(len)`. The subtraction is `ℕ` truncated subtraction; `get_value`
only calls this in a branch where the result of `position` is at least one,
so the `usize` underflow cannot fire there. -/
def Track.get_lower_bound_position {α : Type} (t : Track α) (row : ℕ) : ℕ :=
  t.keys.findIdx (fun k => decide (row < k.row)) - 1

/-- `Track::set_key` from src/track.rs: replace the key at an exactly matching
row, otherwise insert before the first key with a greater-or-equal row,
otherwise append. -/
def Track.set_key {α : Type} (t : Track α) (key : Key α) : Track α :=
  match t.get_exact_position key.row with
  | some pos => { t with keys := t.keys.set pos key }
  | none =>
    match t.get_insert_position key.row with
    | some pos => { t with keys := t.keys.insertIdx pos key }
    | none => { t with keys := t.keys ++ [key] }

/-- `Track::delete_key` from src/track.rs: remove the key at an exactly
matching row, otherwise do nothing. -/
def Track.delete_key {α : Type} (t : Track α) (row : ℕ) : Track α :=
  match t.get_exact_position row with
  | some pos => { t with keys := t.keys.eraseIdx pos }
  | none => t

/-- The Rust cast `x.floor() as u32` (and also `x as u32`, which truncates
toward zero: both agree on every rational, since for negative inputs both
saturate to `0`). Float-to-integer `as` casts in Rust saturate at the bounds
of the target type. -/
def floorToU32 (q : ℚ) : ℕ :=
  min (Int.toNat ⌊q⌋) (2 ^ 32 - 1)

/-- `Track::get_value` from src/track.rs, with `f32` arithmetic modelled as
exact `ℚ` arithmetic. The Rust indexings `keys[pos]` and `keys[pos + 1]` are
modelled by `getD`; in the only branch where they execute both indices are in
bounds whenever the enclosing guards passed (proved below). -/
def Track.get_value (t : Track ℚ) (row : ℚ) : ℚ :=
  match t.keys with
  | [] => 0
  | k0 :: rest =>
    let keys := k0 :: rest
    let lower_row := floorToU32 row
    if lower_row ≤ k0.row then k0.value
    else
      let lastKey := keys.getLast (List.cons_ne_nil k0 rest)
      if lastKey.row ≤ lower_row then lastKey.value
      else
        let pos := t.get_lower_bound_position lower_row
        let lower := keys.getD pos k0
        let higher := keys.getD (pos + 1) k0
        let ph := (row - (lower.row : ℚ)) / ((higher.row : ℚ) - (lower.row : ℚ))
        let it := lower.interpolation.interpolate ph
        lower.value + (higher.value - lower.value) * it

/-- Rows strictly increase along the key list: the sortedness invariant of
`Track` (sorted ascending, no duplicate rows). -/
def sortedKeys {α : Type} (keys : List (Key α)) : Prop :=
  keys.Pairwise (fun a b => a.row < b.row)

/-- Well-formed track: sorted keys whose rows fit in `u32`. -/
def Track.Wf {α : Type} (t : Track α) : Prop :=
  sortedKeys t.keys ∧ ∀ k ∈ t.keys, k.row < 2 ^ 32

/-- Default key used as the `getD` fallback in statements. -/
def dfltKey : Key ℚ := ⟨0, 0, Interpolation.step⟩

/-- Concrete key (5, 0, Linear) for counterexamples and witnesses. -/
def ckLo : Key ℚ := ⟨5, 0, Interpolation.linear⟩

/-- Concrete key (10, 1, Linear) for counterexamples and witnesses. -/
def ckHi : Key ℚ := ⟨10, 1, Interpolation.linear⟩

/-- Concrete two-key linear track for counterexamples and witnesses. -/
def linTrack : Track ℚ := ⟨0, [ckLo, ckHi]⟩

/-- C6: `interpolate` is a total pure function of the phase, returning 0 for
Step, `t` for Linear, `t * t * (3 - 2 * t)` for Smooth and `t * t` for Ramp at
every phase `t` (also outside [0, 1]); and the wire decoding maps bytes
0, 1, 2, 3 to Step, Linear, Smooth, Ramp, and every other byte to Step. -/
theorem c6_interpolate_and_decode :
    (∀ t : ℚ, Interpolation.step.interpolate t = 0) ∧
    (∀ t : ℚ, Interpolation.linear.interpolate t = t) ∧
    (∀ t : ℚ, Interpolation.smooth.interpolate t = t * t * (3 - 2 * t)) ∧
    (∀ t : ℚ, Interpolation.ramp.interpolate t = t * t) ∧
    interpolationOfByte 0 = Interpolation.step ∧
    interpolationOfByte 1 = Interpolation.linear ∧
    interpolationOfByte 2 = Interpolation.smooth ∧
    interpolationOfByte 3 = Interpolation.ramp ∧
    (∀ b : ℕ, 4 ≤ b → interpolationOfByte b = Interpolation.step) := by
  refine ⟨fun _ => rfl, fun _ => rfl, fun _ => rfl, fun _ => rfl, rfl, rfl, rfl, rfl, ?_⟩
  intro b hb
  match b, hb with
  | n + 4, _ => rfl

/-- Witness for C6 at the concrete byte 77. -/
theorem c6_witness : interpolationOfByte 77 = Interpolation.step :=
  c6_interpolate_and_decode.2.2.2.2.2.2.2.2 77 (by norm_num)

/-- C1 counterexample: take the track with keys (5, 0, Linear) and
(10, 1, Linear), and the query row r = 11/2, which lies strictly after the
first key row 5 and strictly before the last key row 10. The bracketing pair
described by the claim is the two keys themselves (the first key whose row
exceeds floor(11/2) = 5 is at position 1, minus one gives lower index 0), and
the claimed formula evaluates to 1/10, but `get_value` returns 0, because its
first clamp tests floor(r) ≤ first row, and floor(11/2) = 5 ≤ 5. -/
theorem c1_counterexample :
    ((ckLo.row : ℚ) < 11 / 2 ∧ (11 / 2 : ℚ) < (ckHi.row : ℚ)) ∧
    linTrack.keys.getD 0 dfltKey = ckLo ∧
    linTrack.keys.getD 1 dfltKey = ckHi ∧
    ckLo.row ≤ floorToU32 (11 / 2) ∧ floorToU32 (11 / 2) < ckHi.row ∧
    linTrack.get_lower_bound_position (floorToU32 (11 / 2)) = 0 ∧
    ckLo.value + (ckHi.value - ckLo.value) *
        ckLo.interpolation.interpolate
          ((11 / 2 - (ckLo.row : ℚ)) / ((ckHi.row : ℚ) - (ckLo.row : ℚ))) = 1 / 10 ∧
    linTrack.get_value (11 / 2) = 0 ∧
    (0 : ℚ) ≠ 1 / 10 := by
  have hfl : floorToU32 (11 / 2) = 5 := by
    have : ⌊(11 / 2 : ℚ)⌋ = 5 := by norm_num
    simp [floorToU32, this]
  refine ⟨⟨by norm_num [ckLo], by norm_num [ckHi]⟩, rfl, rfl, ?_, ?_, ?_, ?_, ?_, by norm_num⟩
  · simp [hfl, ckLo]
  · simp [hfl, ckHi]
  · rw [hfl]
    rfl
  · norm_num [ckLo, ckHi, Interpolation.interpolate]
  · simp only [Track.get_value, linTrack, ckLo, ckHi, hfl]
    norm_num [Track.get_lower_bound_position, List.findIdx, Interpolation.interpolate]

/-- C1 amended: for every sorted track with at least two keys and every query
row `r` such that the floor of `r` is strictly after the first key row
(amended from: `r` is strictly after the first key row) and `r` is strictly
before the last key row, `get_value r` returns
`lower.value + (higher.value - lower.value) * interpolate(lower.interpolation,
(r - lower.row) / (higher.row - lower.row))` where `(lower, higher)` is the
adjacent key pair with `lower.row ≤ floor r < higher.row`, the lower index
being the position of the first key whose row exceeds `floor r`, minus one
(this is `get_lower_bound_position`); the interpolation kind applied is the
lower key one, never the higher one. -/
theorem c1_amended (t : Track ℚ) (hs : sortedKeys t.keys) (r : ℚ)
    (hlen : 2 ≤ t.keys.length)
    (hlo : (t.keys.getD 0 dfltKey).row < floorToU32 r)
    (hhi : r < (((t.keys.getLast?).getD dfltKey).row : ℚ)) :
    ∃ lower higher : Key ℚ,
      t.keys.getD (t.get_lower_bound_position (floorToU32 r)) dfltKey = lower ∧
      t.keys.getD (t.get_lower_bound_position (floorToU32 r) + 1) dfltKey = higher ∧
      t.get_lower_bound_position (floorToU32 r) + 1 < t.keys.length ∧
      lower.row ≤ floorToU32 r ∧ floorToU32 r < higher.row ∧
      t.get_value r = lower.value + (higher.value - lower.value) *
        lower.interpolation.interpolate
          ((r - (lower.row : ℚ)) / ((higher.row : ℚ) - (lower.row : ℚ))) := by
  obtain ⟨nm, keys⟩ := t
  cases keys with
  | nil => simp at hlen
  | cons k0 ks =>
    simp only at hs hlo hhi hlen ⊢
    have hne : k0 :: ks ≠ [] := List.cons_ne_nil k0 ks
    have hlast? : (k0 :: ks).getLast?.getD dfltKey = (k0 :: ks).getLast hne := by
      rw [List.getLast?_eq_getLast (k0 :: ks) hne]
      rfl
    rw [hlast?] at hhi
    have hlo' : k0.row < floorToU32 r := hlo
    have hexp : floorToU32 r = min (Int.toNat ⌊r⌋) (2 ^ 32 - 1) := rfl
    have hfloor_lt : ⌊r⌋ < (((k0 :: ks).getLast hne).row : ℤ) := by
      by_contra hcon
      push_neg at hcon
      have hle : ((((k0 :: ks).getLast hne).row : ℤ) : ℚ) ≤ r := Int.le_floor.mp hcon
      push_cast at hle
      linarith
    have hfrlast : floorToU32 r < ((k0 :: ks).getLast hne).row := by
      rw [hexp] at hlo' ⊢
      omega
    have hex : ∃ x ∈ k0 :: ks, (fun k => decide (floorToU32 r < k.row)) x = true :=
      ⟨(k0 :: ks).getLast hne, List.getLast_mem hne, by simpa using hfrlast⟩
    have hjlt : (k0 :: ks).findIdx (fun k => decide (floorToU32 r < k.row)) <
        (k0 :: ks).length := List.findIdx_lt_length.mpr hex
    have hpj0 := List.findIdx_of_getElem?_eq_some
      (List.getElem?_eq_getElem hjlt)
    have hJpos : 0 < (k0 :: ks).findIdx (fun k => decide (floorToU32 r < k.row)) := by
      rcases Nat.eq_zero_or_pos ((k0 :: ks).findIdx (fun k => decide (floorToU32 r < k.row)))
        with h0 | h
      · exfalso
        simp only [h0, List.getElem_cons_zero, decide_eq_true_eq] at hpj0
        omega
      · exact h
    have hnot0 := List.not_of_lt_findIdx
      (show (k0 :: ks).findIdx (fun k => decide (floorToU32 r < k.row)) - 1 <
          (k0 :: ks).findIdx (fun k => decide (floorToU32 r < k.row)) by omega)
    simp only [decide_eq_true_eq] at hpj0
    simp only [decide_eq_false_iff_not, not_lt] at hnot0
    have hpos : (⟨nm, k0 :: ks⟩ : Track ℚ).get_lower_bound_position (floorToU32 r) =
        (k0 :: ks).findIdx (fun k => decide (floorToU32 r < k.row)) - 1 := rfl
    have hjm1 : (k0 :: ks).findIdx (fun k => decide (floorToU32 r < k.row)) - 1 <
        (k0 :: ks).length := by omega
    have hsum : (k0 :: ks).findIdx (fun k => decide (floorToU32 r < k.row)) - 1 + 1 =
        (k0 :: ks).findIdx (fun k => decide (floorToU32 r < k.row)) := by omega
    rw [hpos]
    refine ⟨(k0 :: ks).get
        ⟨(k0 :: ks).findIdx (fun k => decide (floorToU32 r < k.row)) - 1, hjm1⟩,
      (k0 :: ks).get ⟨(k0 :: ks).findIdx (fun k => decide (floorToU32 r < k.row)), hjlt⟩,
      ?_, ?_, by omega, ?_, ?_, ?_⟩
    · simp [List.getD_eq_getElem?_getD, List.getElem?_eq_getElem hjm1]
    · rw [hsum]
      simp [List.getD_eq_getElem?_getD, List.getElem?_eq_getElem hjlt]
    · simpa using hnot0
    · simpa using hpj0
    · simp only [Track.get_value]
      rw [if_neg (by omega), if_neg (by omega)]
      rw [hpos, hsum]
      simp [List.getD_eq_getElem?_getD, List.getElem?_eq_getElem hjm1,
        List.getElem?_eq_getElem hjlt]

/-- Witness for C1 (amended) at the concrete two-key linear track and the
query row 13/2, whose floor 6 lies strictly between the key rows 5 and 10. -/
theorem c1_witness :
    ∃ lower higher : Key ℚ,
      linTrack.keys.getD (linTrack.get_lower_bound_position (floorToU32 (13 / 2))) dfltKey =
        lower ∧
      linTrack.keys.getD (linTrack.get_lower_bound_position (floorToU32 (13 / 2)) + 1) dfltKey =
        higher ∧
      linTrack.get_lower_bound_position (floorToU32 (13 / 2)) + 1 < linTrack.keys.length ∧
      lower.row ≤ floorToU32 (13 / 2) ∧ floorToU32 (13 / 2) < higher.row ∧
      linTrack.get_value (13 / 2) = lower.value + (higher.value - lower.value) *
        lower.interpolation.interpolate
          ((13 / 2 - (lower.row : ℚ)) / ((higher.row : ℚ) - (lower.row : ℚ))) := by
  have hfl : floorToU32 (13 / 2) = 6 := by
    have : ⌊(13 / 2 : ℚ)⌋ = 6 := by norm_num
    simp [floorToU32, this]
  refine c1_amended linTrack ?_ (13 / 2) ?_ ?_ ?_
  · simp only [linTrack, sortedKeys, ckLo, ckHi, List.pairwise_cons]
    norm_num
  · simp [linTrack]
  · rw [hfl]
    norm_num [linTrack, ckLo]
  · norm_num [linTrack, ckLo, ckHi]

/-- C2: `get_value` on a track with no keys returns 0; on a well-formed
nonempty track it returns the first key value at every query row at or below
the first key row, and the last key value at every query row at or above the
last key row. -/
theorem c2_default_and_clamps (t : Track ℚ) (hw : t.Wf) (r : ℚ) :
    (t.keys = [] → t.get_value r = 0) ∧
    (∀ k0 rest, t.keys = k0 :: rest → r ≤ (k0.row : ℚ) → t.get_value r = k0.value) ∧
    (∀ hne : t.keys ≠ [], ((t.keys.getLast hne).row : ℚ) ≤ r →
      t.get_value r = (t.keys.getLast hne).value) := by
  obtain ⟨nm, keys⟩ := t
  simp only at hw ⊢
  refine ⟨?_, ?_, ?_⟩
  · intro h
    subst h
    rfl
  · rintro k0 rest rfl hr
    have hfl : ⌊r⌋ ≤ (k0.row : ℤ) := by
      calc ⌊r⌋ ≤ ⌊((k0.row : ℚ))⌋ := Int.floor_le_floor hr
        _ = (k0.row : ℤ) := Int.floor_natCast k0.row
    have hcond : floorToU32 r ≤ k0.row := by
      have hexp : floorToU32 r = min (Int.toNat ⌊r⌋) (2 ^ 32 - 1) := rfl
      omega
    simp only [Track.get_value]
    rw [if_pos hcond]
  · intro hne hr
    cases keys with
    | nil => exact absurd rfl hne
    | cons k0 ks =>
      have hmem : (k0 :: ks).getLast hne ∈ k0 :: ks := List.getLast_mem hne
      have hfl : (((k0 :: ks).getLast hne).row : ℤ) ≤ ⌊r⌋ := Int.le_floor.mpr (by
        push_cast
        exact hr)
      have hu32 : ((k0 :: ks).getLast hne).row < 2 ^ 32 := hw.2 _ hmem
      have hcond : ((k0 :: ks).getLast hne).row ≤ floorToU32 r := by
        have hexp : floorToU32 r = min (Int.toNat ⌊r⌋) (2 ^ 32 - 1) := rfl
        omega
      cases ks with
      | nil =>
        have hlast : (([k0] : List (Key ℚ)).getLast hne) = k0 := rfl
        rw [hlast] at hcond ⊢
        simp only [Track.get_value]
        by_cases hc : floorToU32 r ≤ k0.row
        · rw [if_pos hc]
        · rw [if_neg hc]
          have hlast2 : (([k0] : List (Key ℚ)).getLast (List.cons_ne_nil k0 [])) = k0 := rfl
          rw [hlast2, if_pos hcond]
      | cons k1 ks1 =>
        have hne1 : k1 :: ks1 ≠ [] := List.cons_ne_nil k1 ks1
        have hlastc : (k0 :: k1 :: ks1).getLast hne = (k1 :: ks1).getLast hne1 :=
          List.getLast_cons hne1
        have hmem1 : (k1 :: ks1).getLast hne1 ∈ k1 :: ks1 := List.getLast_mem hne1
        have hk0lt : k0.row < ((k0 :: k1 :: ks1).getLast hne).row := by
          rw [hlastc]
          exact (List.pairwise_cons.mp hw.1).1 _ hmem1
        have hnc : ¬(floorToU32 r ≤ k0.row) := by omega
        simp only [Track.get_value]
        rw [if_neg hnc]
        have hsame : ((k0 :: k1 :: ks1).getLast (List.cons_ne_nil k0 (k1 :: ks1))) =
            ((k0 :: k1 :: ks1).getLast hne) := rfl
        rw [hsame, if_pos hcond]

/-- Witness for C2 at the concrete two-key linear track, rows 3 and 12. -/
theorem c2_witness :
    (linTrack.keys = [] → linTrack.get_value 3 = 0) ∧
    (∀ k0 rest, linTrack.keys = k0 :: rest → (3 : ℚ) ≤ (k0.row : ℚ) →
      linTrack.get_value 3 = k0.value) ∧
    (∀ hne : linTrack.keys ≠ [], ((linTrack.keys.getLast hne).row : ℚ) ≤ 3 →
      linTrack.get_value 3 = (linTrack.keys.getLast hne).value) :=
  c2_default_and_clamps linTrack
    ⟨by simp only [linTrack, sortedKeys, ckLo, ckHi, List.pairwise_cons]; norm_num,
     by intro k hk
        simp only [linTrack, ckLo, ckHi, List.mem_cons, List.mem_singleton] at hk
        rcases hk with rfl | rfl | h
        · norm_num
        · norm_num
        · simp at h⟩ 3

/-- Sorted key lists have strictly increasing rows at increasing indices. -/
theorem sortedKeys_get_lt {α : Type} {keys : List (Key α)} (hs : sortedKeys keys)
    {i j : ℕ} (hij : i < j) (hj : j < keys.length) :
    (keys.get ⟨i, Nat.lt_trans hij hj⟩).row < (keys.get ⟨j, hj⟩).row := by
  have h := List.pairwise_iff_getElem.mp hs i j (Nat.lt_trans hij hj) hj hij
  simpa using h

/-- The replace branch of `set_key`. -/
theorem set_key_keys_of_exact {α : Type} (t : Track α) (key : Key α) (p : ℕ)
    (h : t.get_exact_position key.row = some p) :
    (t.set_key key).keys = t.keys.set p key := by
  simp only [Track.set_key, h]

/-- The insert branch of `set_key`. -/
theorem set_key_keys_of_insert {α : Type} (t : Track α) (key : Key α) (p : ℕ)
    (h1 : t.get_exact_position key.row = none)
    (h2 : t.get_insert_position key.row = some p) :
    (t.set_key key).keys = t.keys.insertIdx p key := by
  simp only [Track.set_key, h1, h2]

/-- The append branch of `set_key`. -/
theorem set_key_keys_of_append {α : Type} (t : Track α) (key : Key α)
    (h1 : t.get_exact_position key.row = none)
    (h2 : t.get_insert_position key.row = none) :
    (t.set_key key).keys = t.keys ++ [key] := by
  simp only [Track.set_key, h1, h2]

/-- The erase branch of `delete_key`. -/
theorem delete_key_keys_of_exact {α : Type} (t : Track α) (row : ℕ) (p : ℕ)
    (h : t.get_exact_position row = some p) :
    (t.delete_key row).keys = t.keys.eraseIdx p := by
  simp only [Track.delete_key, h]

/-- The missing-row branch of `delete_key`. -/
theorem delete_key_of_none {α : Type} (t : Track α) (row : ℕ)
    (h : t.get_exact_position row = none) :
    t.delete_key row = t := by
  simp only [Track.delete_key, h]

/-- Unpacking of a successful exact-position search. -/
theorem exact_position_spec {α : Type} {t : Track α} {row : ℕ} {p : ℕ}
    (h : t.get_exact_position row = some p) :
    ∃ hp : p < t.keys.length, (t.keys.get ⟨p, hp⟩).row = row ∧
      ∀ j (hj : j < p), (t.keys.get ⟨j, Nat.lt_trans hj hp⟩).row ≠ row := by
  simp only [Track.get_exact_position] at h
  rw [List.findIdx?_eq_some_iff_getElem] at h
  obtain ⟨hp, hcur, hprev⟩ := h
  refine ⟨hp, by simpa using hcur, ?_⟩
  intro j hj
  have := hprev j hj
  simpa using this

/-- A failed exact-position search means no key has that row. -/
theorem exact_position_none {α : Type} {t : Track α} {row : ℕ}
    (h : t.get_exact_position row = none) :
    ∀ k ∈ t.keys, k.row ≠ row := by
  simp only [Track.get_exact_position] at h
  rw [List.findIdx?_eq_none_iff] at h
  intro k hk
  have := h k hk
  simpa using this

/-- Unpacking of a successful insert-position search. -/
theorem insert_position_spec {α : Type} {t : Track α} {row : ℕ} {p : ℕ}
    (h : t.get_insert_position row = some p) :
    ∃ hp : p < t.keys.length, row ≤ (t.keys.get ⟨p, hp⟩).row ∧
      ∀ j (hj : j < p), (t.keys.get ⟨j, Nat.lt_trans hj hp⟩).row < row := by
  simp only [Track.get_insert_position] at h
  rw [List.findIdx?_eq_some_iff_getElem] at h
  obtain ⟨hp, hcur, hprev⟩ := h
  refine ⟨hp, by simpa using hcur, ?_⟩
  intro j hj
  have := hprev j hj
  simpa using this

/-- A failed insert-position search means every key row is strictly below. -/
theorem insert_position_none {α : Type} {t : Track α} {row : ℕ}
    (h : t.get_insert_position row = none) :
    ∀ k ∈ t.keys, k.row < row := by
  simp only [Track.get_insert_position] at h
  rw [List.findIdx?_eq_none_iff] at h
  intro k hk
  have := h k hk
  simpa using this

/-- The insert-position search agrees with `findIdx` of the same test. -/
theorem insert_position_findIdx {α : Type} (t : Track α) (row : ℕ) :
    t.keys.findIdx (fun k => decide (row ≤ k.row)) =
      match t.get_insert_position row with
      | some p => p
      | none => t.keys.length := by
  match hip : t.get_insert_position row with
  | some p =>
    simp only [Track.get_insert_position] at hip
    exact (List.findIdx?_eq_some_iff_findIdx_eq.mp hip).2
  | none =>
    simp only [Track.get_insert_position] at hip
    rw [List.findIdx?_eq_none_iff] at hip
    exact List.findIdx_eq_length_of_false hip

/-- Replacing a key by one with the same row preserves sortedness. -/
theorem sortedKeys_set_same_row {α : Type} {keys : List (Key α)} {key : Key α} {p : ℕ}
    (hs : sortedKeys keys) (hp : p < keys.length)
    (hrow : (keys.get ⟨p, hp⟩).row = key.row) :
    sortedKeys (keys.set p key) := by
  rw [sortedKeys, List.pairwise_iff_getElem] at hs ⊢
  simp only [List.get_eq_getElem] at hrow
  intro i j hi hj hij
  rw [List.length_set] at hi hj
  rw [List.getElem_set, List.getElem_set]
  rcases eq_or_ne p i with rfl | hpi
  · rw [if_pos rfl, if_neg (by omega)]
    rw [← hrow]
    exact hs p j hi hj hij
  · rw [if_neg hpi]
    rcases eq_or_ne p j with rfl | hpj
    · rw [if_pos rfl, ← hrow]
      exact hs i p hi hj hij
    · rw [if_neg hpj]
      exact hs i j hi hj hij

/-- Inserting a key between strictly smaller and strictly larger rows
preserves sortedness. -/
theorem sortedKeys_insertIdx {α : Type} {keys : List (Key α)} {key : Key α} {p : ℕ}
    (hs : sortedKeys keys) (hp : p ≤ keys.length)
    (hlow : ∀ j (hjl : j < keys.length), j < p → (keys.get ⟨j, hjl⟩).row < key.row)
    (hhigh : ∀ j (hjl : j < keys.length), p ≤ j → key.row < (keys.get ⟨j, hjl⟩).row) :
    sortedKeys (keys.insertIdx p key) := by
  rw [sortedKeys, List.pairwise_iff_getElem] at hs ⊢
  simp only [List.get_eq_getElem] at hlow hhigh
  intro i j hi hj hij
  rw [List.length_insertIdx p keys hp] at hi hj
  rcases Nat.lt_trichotomy j p with hjp | rfl | hjp
  · rw [List.getElem_insertIdx_of_lt keys key p i (by omega) (by omega),
      List.getElem_insertIdx_of_lt keys key p j hjp (by omega)]
    exact hs i j (by omega) (by omega) hij
  · rw [List.getElem_insertIdx_of_lt keys key j i hij (by omega),
      List.getElem_insertIdx_self keys key j hp]
    exact hlow i (by omega) hij
  · obtain ⟨k, rfl⟩ : ∃ k, j = p + k + 1 := ⟨j - p - 1, by omega⟩
    rw [List.getElem_insertIdx_add_succ keys key p k (by omega)]
    rcases Nat.lt_trichotomy i p with hip | rfl | hip
    · rw [List.getElem_insertIdx_of_lt keys key p i hip (by omega)]
      exact hs i (p + k) (by omega) (by omega) (by omega)
    · rw [List.getElem_insertIdx_self keys key i hp]
      exact hhigh (i + k) (by omega) (by omega)
    · obtain ⟨m, rfl⟩ : ∃ m, i = p + m + 1 := ⟨i - p - 1, by omega⟩
      rw [List.getElem_insertIdx_add_succ keys key p m (by omega)]
      exact hs (p + m) (p + k) (by omega) (by omega) (by omega)

/-- `insertIdx` splices the element between the prefix and the suffix. -/
theorem insertIdx_eq_take_cons_drop {α : Type} (l : List α) (x : α) (n : ℕ)
    (hn : n ≤ l.length) :
    l.insertIdx n x = l.take n ++ x :: l.drop n := by
  induction l generalizing n with
  | nil =>
    have hn0 : n = 0 := by simpa using hn
    subst hn0
    simp
  | cons a l ih =>
    cases n with
    | zero => simp
    | succ n =>
      simp only [List.insertIdx_succ_cons, List.take_succ_cons, List.drop_succ_cons,
        List.cons_append, List.cons.injEq, true_and]
      exact ih n (by simpa using hn)

/-- A membership-based row witness turns `get_exact_position` into `some`. -/
theorem exact_position_isSome {α : Type} {t : Track α} {row : ℕ}
    (hex : ∃ k ∈ t.keys, k.row = row) :
    ∃ p, t.get_exact_position row = some p := by
  have h : (t.keys.findIdx? (fun k => k.row == row)).isSome := by
    rw [List.findIdx?_isSome, List.any_eq_true]
    obtain ⟨k, hk, hrow⟩ := hex
    exact ⟨k, hk, by simpa using hrow⟩
  obtain ⟨p, hp⟩ := Option.isSome_iff_exists.mp h
  exact ⟨p, hp⟩

/-- A universal row refutation turns `get_exact_position` into `none`. -/
theorem exact_position_eq_none {α : Type} {t : Track α} {row : ℕ}
    (hne : ∀ k ∈ t.keys, k.row ≠ row) :
    t.get_exact_position row = none := by
  simp only [Track.get_exact_position]
  rw [List.findIdx?_eq_none_iff]
  intro k hk
  simpa using hne k hk

/-- C5: the track operations preserve the sorted-without-duplicates invariant,
`set_key` on an existing row replaces that key in place leaving the length
unchanged, `set_key` on a fresh row splices the key in right before the first
key with a greater-or-equal row (appending when there is none), `delete_key`
on an absent row is a no-op, and `delete_key` on a present row removes exactly
the keys carrying that row. -/
theorem c5_set_delete_invariants (t : Track ℚ) (key : Key ℚ) (row : ℕ)
    (hw : t.Wf) (hkey : key.row < 2 ^ 32) :
    ((t.set_key key).Wf ∧ (t.delete_key row).Wf) ∧
    ((∃ k ∈ t.keys, k.row = key.row) →
      (t.set_key key).keys.length = t.keys.length ∧
      ∀ i, (t.set_key key).keys.getD i dfltKey =
        if (t.keys.getD i dfltKey).row = key.row ∧ i < t.keys.length then key
        else t.keys.getD i dfltKey) ∧
    ((∀ k ∈ t.keys, k.row ≠ key.row) →
      (t.set_key key).keys =
        t.keys.take (t.keys.findIdx fun k => decide (key.row ≤ k.row)) ++
          key :: t.keys.drop (t.keys.findIdx fun k => decide (key.row ≤ k.row))) ∧
    ((∀ k ∈ t.keys, k.row ≠ row) → t.delete_key row = t) ∧
    ((∃ k ∈ t.keys, k.row = row) →
      ∀ x, x ∈ (t.delete_key row).keys ↔ x ∈ t.keys ∧ x.row ≠ row) := by
  obtain ⟨hsort, hbound⟩ := hw
  refine ⟨⟨?_, ?_⟩, ?_, ?_, ?_, ?_⟩
  · -- set_key preserves Wf
    match hE : t.get_exact_position key.row with
    | some p =>
      obtain ⟨hp, hrow, _⟩ := exact_position_spec hE
      rw [Track.Wf, set_key_keys_of_exact t key p hE]
      refine ⟨sortedKeys_set_same_row hsort hp hrow, ?_⟩
      intro x hx
      rcases List.mem_or_eq_of_mem_set hx with hmem | rfl
      · exact hbound x hmem
      · exact hkey
    | none =>
      have hne := exact_position_none hE
      match hI : t.get_insert_position key.row with
      | some p =>
        obtain ⟨hp, hge, hlt⟩ := insert_position_spec hI
        have hpstrict : key.row < (t.keys.get ⟨p, hp⟩).row := by
          rcases lt_or_eq_of_le hge with h | h
          · exact h
          · exact absurd h.symm (hne _ (t.keys.get_mem p hp))
        rw [Track.Wf, set_key_keys_of_insert t key p hE hI]
        constructor
        · refine sortedKeys_insertIdx hsort (le_of_lt hp) ?_ ?_
          · intro j hjl hj
            exact hlt j hj
          · intro j hjl hj
            rcases eq_or_lt_of_le hj with rfl | hlt2
            · exact hpstrict
            · exact lt_trans hpstrict (sortedKeys_get_lt hsort hlt2 hjl)
        · intro x hx
          rcases (List.mem_insertIdx (le_of_lt hp)).mp hx with rfl | hmem
          · exact hkey
          · exact hbound x hmem
      | none =>
        have hall := insert_position_none hI
        rw [Track.Wf, set_key_keys_of_append t key hE hI]
        constructor
        · rw [sortedKeys, List.pairwise_append]
          refine ⟨hsort, by simp, ?_⟩
          intro a ha b hb
          rw [List.mem_singleton] at hb
          subst hb
          exact hall a ha
        · intro x hx
          rcases List.mem_append.mp hx with hmem | hmem
          · exact hbound x hmem
          · rw [List.mem_singleton] at hmem
            subst hmem
            exact hkey
  · -- delete_key preserves Wf
    match hE : t.get_exact_position row with
    | some p =>
      rw [Track.Wf, delete_key_keys_of_exact t row p hE]
      refine ⟨List.Pairwise.sublist (List.eraseIdx_sublist t.keys p) hsort, ?_⟩
      intro x hx
      exact hbound x ((List.eraseIdx_sublist t.keys p).subset hx)
    | none =>
      rw [delete_key_of_none t row hE]
      exact ⟨hsort, hbound⟩
  · -- replace in place
    intro hex
    obtain ⟨p, hE⟩ := exact_position_isSome hex
    obtain ⟨hp, hrow, hprev⟩ := exact_position_spec hE
    simp only [List.get_eq_getElem] at hrow hprev
    rw [set_key_keys_of_exact t key p hE]
    refine ⟨List.length_set t.keys p key, ?_⟩
    intro i
    by_cases hi : i < t.keys.length
    · have hgd1 : (t.keys.set p key).getD i dfltKey = (t.keys.set p key).get
          ⟨i, by rw [List.length_set]; exact hi⟩ := by
        simp [List.getD_eq_getElem?_getD,
          List.getElem?_eq_getElem (show i < (t.keys.set p key).length by
            rw [List.length_set]; exact hi)]
      have hgd2 : t.keys.getD i dfltKey = t.keys.get ⟨i, hi⟩ := by
        simp [List.getD_eq_getElem?_getD, List.getElem?_eq_getElem hi]
      rw [hgd1, hgd2]
      simp only [List.get_eq_getElem]
      rcases eq_or_ne i p with rfl | hip
      · rw [List.getElem_set_self]
        rw [if_pos ⟨hrow, hi⟩]
      · rw [List.getElem_set_ne (Ne.symm hip), if_neg]
        rintro ⟨hreq, -⟩
        rcases Nat.lt_or_ge i p with hlt | hge
        · exact hprev i hlt hreq
        · have hgt : p < i := lt_of_le_of_ne hge (Ne.symm hip)
          have := sortedKeys_get_lt hsort hgt hi
          simp only [List.get_eq_getElem] at this
          rw [hrow, hreq] at this
          exact lt_irrefl _ this
    · have hge : t.keys.length ≤ i := le_of_not_lt hi
      have hd1 : (t.keys.set p key).getD i dfltKey = dfltKey := by
        simp [List.getD_eq_getElem?_getD,
          List.getElem?_eq_none (show (t.keys.set p key).length ≤ i by
            rw [List.length_set]; exact hge)]
      have hd2 : t.keys.getD i dfltKey = dfltKey := by
        simp [List.getD_eq_getElem?_getD, List.getElem?_eq_none hge]
      rw [hd1, hd2, if_neg]
      rintro ⟨-, hcon⟩
      omega
  · -- fresh-row insertion as take/cons/drop
    intro hnone
    have hE : t.get_exact_position key.row = none := exact_position_eq_none hnone
    match hI : t.get_insert_position key.row with
    | some p =>
      obtain ⟨hp, -, -⟩ := insert_position_spec hI
      have hf : t.keys.findIdx (fun k => decide (key.row ≤ k.row)) = p := by
        have h := insert_position_findIdx t key.row
        rw [hI] at h
        exact h
      rw [set_key_keys_of_insert t key p hE hI, hf]
      exact insertIdx_eq_take_cons_drop t.keys key p (le_of_lt hp)
    | none =>
      have hf : t.keys.findIdx (fun k => decide (key.row ≤ k.row)) = t.keys.length := by
        have h := insert_position_findIdx t key.row
        rw [hI] at h
        exact h
      rw [set_key_keys_of_append t key hE hI, hf]
      simp
  · -- delete on an absent row is a no-op
    intro hnone
    exact delete_key_of_none t row (exact_position_eq_none hnone)
  · -- delete on a present row removes exactly that row
    intro hex x
    obtain ⟨p, hE⟩ := exact_position_isSome hex
    obtain ⟨hp, hrow, hprev⟩ := exact_position_spec hE
    simp only [List.get_eq_getElem] at hrow hprev
    rw [delete_key_keys_of_exact t row p hE]
    constructor
    · intro hx
      refine ⟨(List.eraseIdx_sublist t.keys p).subset hx, ?_⟩
      obtain ⟨q, hq, hqx⟩ := List.mem_iff_getElem.mp hx
      rcases Nat.lt_or_ge q p with hlt | hge
      · rw [List.getElem_eraseIdx_of_lt t.keys p q hq hlt] at hqx
        rw [← hqx]
        exact hprev q hlt
      · rw [List.getElem_eraseIdx_of_ge t.keys p q hq hge] at hqx
        rw [← hqx, ← hrow]
        have hlen : q + 1 < t.keys.length := by
          have := List.length_eraseIdx_of_lt hp
          omega
        have := sortedKeys_get_lt hsort (show p < q + 1 by omega) hlen
        simp only [List.get_eq_getElem] at this
        omega
    · rintro ⟨hx, hrne⟩
      obtain ⟨q, hq, rfl⟩ := List.mem_iff_getElem.mp hx
      have hqp : q ≠ p := by
        intro h
        subst h
        exact hrne hrow
      have hlen : (t.keys.eraseIdx p).length = t.keys.length - 1 :=
        List.length_eraseIdx_of_lt hp
      rcases Nat.lt_or_ge q p with hlt | hge
      · refine List.mem_iff_getElem.mpr ⟨q, by omega, ?_⟩
        rw [List.getElem_eraseIdx_of_lt t.keys p q (by omega) hlt]
      · have hgt : p < q := lt_of_le_of_ne hge (Ne.symm hqp)
        obtain ⟨m, rfl⟩ : ∃ m, q = m + 1 := ⟨q - 1, by omega⟩
        refine List.mem_iff_getElem.mpr ⟨m, by omega, ?_⟩
        rw [List.getElem_eraseIdx_of_ge t.keys p m (by omega) (by omega)]

/-- Witness for C5 at the concrete two-key track, the fresh key (7, 3, Smooth)
and the present row 10. -/
theorem c5_witness :
    ((linTrack.set_key ⟨7, 3, Interpolation.smooth⟩).Wf ∧ (linTrack.delete_key 10).Wf) ∧
    ((∃ k ∈ linTrack.keys, k.row = (⟨7, 3, Interpolation.smooth⟩ : Key ℚ).row) →
      (linTrack.set_key ⟨7, 3, Interpolation.smooth⟩).keys.length = linTrack.keys.length ∧
      ∀ i, (linTrack.set_key ⟨7, 3, Interpolation.smooth⟩).keys.getD i dfltKey =
        if (linTrack.keys.getD i dfltKey).row = (⟨7, 3, Interpolation.smooth⟩ : Key ℚ).row ∧
            i < linTrack.keys.length then ⟨7, 3, Interpolation.smooth⟩
        else linTrack.keys.getD i dfltKey) ∧
    ((∀ k ∈ linTrack.keys, k.row ≠ (⟨7, 3, Interpolation.smooth⟩ : Key ℚ).row) →
      (linTrack.set_key ⟨7, 3, Interpolation.smooth⟩).keys =
        linTrack.keys.take (linTrack.keys.findIdx fun k =>
          decide ((⟨7, 3, Interpolation.smooth⟩ : Key ℚ).row ≤ k.row)) ++
          (⟨7, 3, Interpolation.smooth⟩ : Key ℚ) :: linTrack.keys.drop
            (linTrack.keys.findIdx fun k =>
              decide ((⟨7, 3, Interpolation.smooth⟩ : Key ℚ).row ≤ k.row))) ∧
    ((∀ k ∈ linTrack.keys, k.row ≠ 10) → linTrack.delete_key 10 = linTrack) ∧
    ((∃ k ∈ linTrack.keys, k.row = 10) →
      ∀ x, x ∈ (linTrack.delete_key 10).keys ↔ x ∈ linTrack.keys ∧ x.row ≠ 10) :=
  c5_set_delete_invariants linTrack ⟨7, 3, Interpolation.smooth⟩ 10
    ⟨by simp only [linTrack, sortedKeys, ckLo, ckHi, List.pairwise_cons]; norm_num,
     by intro k hk
        simp only [linTrack, ckLo, ckHi, List.mem_cons, List.mem_singleton] at hk
        rcases hk with rfl | rfl | h
        · norm_num
        · norm_num
        · simp at h⟩
    (by norm_num)

/-! ### Wire decoder state machine, from src/client.rs -/

/-- Protocol opcode `SET_KEY` from src/client.rs. -/
def SET_KEY : ℕ := 0

/-- Protocol opcode `DELETE_KEY` from src/client.rs. -/
def DELETE_KEY : ℕ := 1

/-- Protocol opcode `GET_TRACK` from src/client.rs (client to server only). -/
def GET_TRACK : ℕ := 2

/-- Protocol opcode `SET_ROW` from src/client.rs. -/
def SET_ROW : ℕ := 3

/-- Protocol opcode `PAUSE` from src/client.rs. -/
def PAUSE : ℕ := 4

/-- Protocol opcode `SAVE_TRACKS` from src/client.rs. -/
def SAVE_TRACKS : ℕ := 5

/-- Body length of a `SET_KEY` frame. -/
def SET_KEY_LEN : ℕ := 4 + 4 + 4 + 1

/-- Body length of a `DELETE_KEY` frame. -/
def DELETE_KEY_LEN : ℕ := 4 + 4

/-- Body length of a `SET_ROW` frame. -/
def SET_ROW_LEN : ℕ := 4

/-- Body length of a `PAUSE` frame. -/
def PAUSE_LEN : ℕ := 1

/-- The `ClientState` enumeration from src/client.rs. -/
inductive ClientState where
  | new
  | incomplete (bytes : ℕ)
  | complete
deriving DecidableEq, Repr

/-- The `Event` enumeration from src/client.rs. -/
inductive Event where
  | setRow (row : ℕ)
  | pause (flag : Bool)
  | saveTracks
deriving DecidableEq, Repr

/-- The `ReceiveResult` enumeration from src/client.rs. -/
inductive ReceiveResult where
  | some (e : Event)
  | none
  | incomplete
deriving DecidableEq, Repr

/-- The `RocketClient` state from src/client.rs: decoder state, accumulated
command buffer, and the track vector. The TCP socket is modelled as an
explicit queue of pending bytes passed to the polling functions, and the
`f32` key values received on the wire are stored as their raw 32-bit
big-endian patterns (`ℕ`), so track-state equality is bitwise equality. -/
structure RocketClient where
  state : ClientState
  cmd : List ℕ
  tracks : List (Track ℕ)
deriving DecidableEq, Repr

/-- A fresh client as built by `RocketClient::connect`, generalized over the
already-created tracks. -/
def initClient (tracks : List (Track ℕ)) : RocketClient :=
  { state := ClientState.new, cmd := [], tracks := tracks }

/-- `cursor.read_u8()`: one byte off the front, or an IO error (`none`). -/
def readU8 (buf : List ℕ) : Option (ℕ × List ℕ) :=
  match buf with
  | [] => Option.none
  | b :: rest => Option.some (b, rest)

/-- `cursor.read_u32::<BigEndian>()`: four big-endian bytes, or an IO error. -/
def readU32 (buf : List ℕ) : Option (ℕ × List ℕ) :=
  match buf with
  | b0 :: b1 :: b2 :: b3 :: rest =>
    Option.some (((b0 * 256 + b1) * 256 + b2) * 256 + b3, rest)
  | _ => Option.none

/-- The command dispatch of `RocketClient::process_event` after the opcode
byte has been read: returns the updated track vector and the receive result,
or `none` when the Rust code would panic, which happens exactly when a
`SET_KEY`/`DELETE_KEY` frame carries a track index at or past the end of the
track vector (`&mut self.tracks[index]`), or when the cursor runs out of
bytes (the `unreachable!` path, impossible for buffers filled by the state
machine). The `f32` wire value is kept as its raw 32-bit pattern; the stderr
logging of unknown commands is dropped. -/
def processBody (cmd : ℕ) (cur : List ℕ) (tracks : List (Track ℕ)) :
    Option (List (Track ℕ) × ReceiveResult) :=
  if cmd = SET_KEY then
    match readU32 cur with
    | Option.none => Option.none
    | Option.some (index, cur) =>
      if htrack : index < tracks.length then
        match readU32 cur with
        | Option.none => Option.none
        | Option.some (row, cur) =>
          match readU32 cur with
          | Option.none => Option.none
          | Option.some (value, cur) =>
            match readU8 cur with
            | Option.none => Option.none
            | Option.some (interp, _) =>
              Option.some (tracks.set index ((tracks.get ⟨index, htrack⟩).set_key
                ⟨row, value, interpolationOfByte interp⟩), ReceiveResult.none)
      else Option.none
  else if cmd = DELETE_KEY then
    match readU32 cur with
    | Option.none => Option.none
    | Option.some (index, cur) =>
      if htrack : index < tracks.length then
        match readU32 cur with
        | Option.none => Option.none
        | Option.some (row, _) =>
          Option.some (tracks.set index ((tracks.get ⟨index, htrack⟩).delete_key row),
            ReceiveResult.none)
      else Option.none
  else if cmd = SET_ROW then
    match readU32 cur with
    | Option.none => Option.none
    | Option.some (row, _) => Option.some (tracks, ReceiveResult.some (Event.setRow row))
  else if cmd = PAUSE then
    match readU8 cur with
    | Option.none => Option.none
    | Option.some (flag, _) =>
      Option.some (tracks, ReceiveResult.some (Event.pause (flag == 1)))
  else if cmd = SAVE_TRACKS then
    Option.some (tracks, ReceiveResult.some Event.saveTracks)
  else
    Option.some (tracks, ReceiveResult.none)

/-- `RocketClient::process_event` from src/client.rs: parse the accumulated
command buffer, mutate the tracks for `SET_KEY`/`DELETE_KEY`, surface
`SET_ROW`/`PAUSE`/`SAVE_TRACKS` as events, ignore unknown commands; then
clear the buffer and return to the awaiting-opcode state. `none` models the
panics described at `processBody`. -/
def processEvent (c : RocketClient) : Option (RocketClient × ReceiveResult) :=
  match readU8 c.cmd with
  | Option.none => Option.none
  | Option.some (cmd, cur) =>
    match processBody cmd cur c.tracks with
    | Option.none => Option.none
    | Option.some (tracks2, res) =>
      Option.some ({ c with cmd := [], state := ClientState.new, tracks := tracks2 }, res)

/-- `RocketClient::poll_event_new`: read exactly one byte (would-block on an
empty queue), append it to the command buffer, and dispatch on the first
buffered byte to the fixed body length; `SAVE_TRACKS` and unknown opcodes go
straight to the complete state. -/
def pollEventNew (c : RocketClient) (avail : List ℕ) :
    RocketClient × List ℕ × ReceiveResult :=
  match avail with
  | [] => (c, [], ReceiveResult.none)
  | b :: rest =>
    let cmd := c.cmd ++ [b]
    let st :=
      if cmd.headD 0 = SET_KEY then ClientState.incomplete SET_KEY_LEN
      else if cmd.headD 0 = DELETE_KEY then ClientState.incomplete DELETE_KEY_LEN
      else if cmd.headD 0 = SET_ROW then ClientState.incomplete SET_ROW_LEN
      else if cmd.headD 0 = PAUSE then ClientState.incomplete PAUSE_LEN
      else ClientState.complete
    ({ c with cmd := cmd, state := st }, rest, ReceiveResult.incomplete)

/-- `RocketClient::poll_event_incomplete`: read up to `bytes` bytes. A
nonempty queue hands over `min bytes avail.length` bytes (the kernel returns
what is buffered, capped by the request); an empty queue would-blocks. The
state stays incomplete with the byte count decremented by the bytes actually
read, reaching the complete state at zero. -/
def pollEventIncomplete (c : RocketClient) (bytes : ℕ) (avail : List ℕ) :
    RocketClient × List ℕ × ReceiveResult :=
  match avail with
  | [] => (c, [], ReceiveResult.none)
  | _ :: _ =>
    let bytesRead := min bytes avail.length
    let st := if bytes - bytesRead > 0 then ClientState.incomplete (bytes - bytesRead)
      else ClientState.complete
    ({ c with cmd := c.cmd ++ avail.take bytesRead, state := st },
      avail.drop bytesRead, ReceiveResult.incomplete)

/-- `RocketClient::poll_event`: dispatch on the decoder state. -/
def pollEvent (c : RocketClient) (avail : List ℕ) :
    Option (RocketClient × List ℕ × ReceiveResult) :=
  match c.state with
  | ClientState.new => Option.some (pollEventNew c avail)
  | ClientState.incomplete bytes => Option.some (pollEventIncomplete c bytes avail)
  | ClientState.complete =>
    (processEvent c).map (fun pr => (pr.1, avail, pr.2))

/-- Rank of a decoder state in the loop termination measure. -/
def stateRank : ClientState → ℕ
  | ClientState.complete => 0
  | _ => 1

/-- Termination measure of the internal `poll_events` loop. -/
def pollMeasure (c : RocketClient) (avail : List ℕ) : ℕ :=
  2 * avail.length + stateRank c.state

/-- Every decoder state ranks at most one. -/
theorem stateRank_le_one (s : ClientState) : stateRank s ≤ 1 := by
  cases s <;> simp [stateRank]

/-- The command dispatch never reports the incomplete receive result. -/
theorem processBody_not_incomplete {cmd : ℕ} {cur : List ℕ} {tracks : List (Track ℕ)}
    {tr : List (Track ℕ)} {rr : ReceiveResult}
    (h : processBody cmd cur tracks = Option.some (tr, rr)) :
    rr ≠ ReceiveResult.incomplete := by
  unfold processBody at h
  repeat' split at h
  all_goals (injection h <;> (intro h1; simp_all))

/-- `process_event` never reports the incomplete receive result, and always
returns to the awaiting-opcode state with a cleared buffer, leaving the
available bytes untouched. -/
theorem processEvent_spec {c : RocketClient} {c2 : RocketClient} {rr : ReceiveResult}
    (h : processEvent c = Option.some (c2, rr)) :
    rr ≠ ReceiveResult.incomplete ∧ c2.state = ClientState.new ∧ c2.cmd = [] := by
  unfold processEvent at h
  rcases h8 : readU8 c.cmd with - | ⟨cmd, cur⟩
  · rw [h8] at h
    simp at h
  · rw [h8] at h
    simp only at h
    rcases hb : processBody cmd cur c.tracks with - | ⟨tr, res⟩
    · rw [hb] at h
      simp at h
    · rw [hb] at h
      simp only [Option.some.injEq, Prod.mk.injEq] at h
      obtain ⟨h1, h2⟩ := h
      rw [← h1, ← h2]
      exact ⟨processBody_not_incomplete hb, rfl, rfl⟩

/-- A `poll_event` returning the incomplete receive result strictly
decreases the loop measure. -/
theorem pollEvent_incomplete_measure {c c2 : RocketClient} {avail avail2 : List ℕ}
    (h : pollEvent c avail = Option.some (c2, avail2, ReceiveResult.incomplete)) :
    pollMeasure c2 avail2 < pollMeasure c avail := by
  have hub := stateRank_le_one c2.state
  have hm2 : pollMeasure c2 avail2 = 2 * avail2.length + stateRank c2.state := rfl
  rcases hs : c.state with - | bytes | -
  · rw [pollEvent, hs] at h
    rcases avail with - | ⟨b, rest⟩
    · simp [pollEventNew] at h
    · simp only [pollEventNew, Option.some.injEq, Prod.mk.injEq] at h
      obtain ⟨h1, h2, -⟩ := h
      subst h2
      have hms : pollMeasure c (b :: rest) = 2 * (rest.length + 1) + stateRank ClientState.new := by
        unfold pollMeasure
        rw [hs, List.length_cons]
      have hnew : stateRank ClientState.new = 1 := rfl
      omega
  · rw [pollEvent, hs] at h
    rcases avail with - | ⟨b, rest⟩
    · simp [pollEventIncomplete] at h
    · simp only [pollEventIncomplete, Option.some.injEq, Prod.mk.injEq] at h
      obtain ⟨h1, h2, -⟩ := h
      have hms : pollMeasure c (b :: rest) =
          2 * (rest.length + 1) + stateRank (ClientState.incomplete bytes) := by
        unfold pollMeasure
        rw [hs, List.length_cons]
      have hinc : stateRank (ClientState.incomplete bytes) = 1 := rfl
      have hL : (b :: rest).length = rest.length + 1 := rfl
      have hlen2 : avail2.length = (b :: rest).length - min bytes (b :: rest).length := by
        rw [← h2, List.length_drop]
      rcases Nat.eq_zero_or_pos bytes with rfl | hpos
      · have hst : c2.state = ClientState.complete := by
          rw [← h1]
          simp
        have hrank : stateRank c2.state = 0 := by
          rw [hst]
          simp [stateRank]
        omega
      · have hmin : 1 ≤ min bytes (b :: rest).length := by omega
        omega
  · rw [pollEvent, hs] at h
    rcases hp : processEvent c with - | ⟨c3, rr⟩
    · rw [hp] at h
      simp at h
    · rw [hp] at h
      simp only [Option.map_some', Option.some.injEq, Prod.mk.injEq] at h
      exact absurd h.2.2 (processEvent_spec hp).1

/-- `RocketClient::poll_events` from src/client.rs: loop on `poll_event`
until it produces an application event or no event is available. -/
def pollEvents (c : RocketClient) (avail : List ℕ) :
    Option (RocketClient × List ℕ × Option Event) :=
  match h : pollEvent c avail with
  | Option.none => Option.none
  | Option.some (c2, avail2, ReceiveResult.none) => Option.some (c2, avail2, Option.none)
  | Option.some (c2, avail2, ReceiveResult.some e) => Option.some (c2, avail2, Option.some e)
  | Option.some (c2, avail2, ReceiveResult.incomplete) => pollEvents c2 avail2
termination_by pollMeasure c avail
decreasing_by exact pollEvent_incomplete_measure h


/-- Turn a receive result into the optional event `poll_events` reports. -/
def eventOf : ReceiveResult → Option Event
  | ReceiveResult.some e => Option.some e
  | _ => Option.none

/-- Reference one-byte decoder step: feed a single byte, running
`process_event` as soon as the frame completes. This is proof infrastructure
for the chunking-invariance theorem, not a translation of Rust code. -/
def feed1 (c : RocketClient) (b : ℕ) : Option (RocketClient × Option Event) :=
  match c.state with
  | ClientState.new =>
    let cmd := c.cmd ++ [b]
    if cmd.headD 0 = SET_KEY then
      Option.some ({ c with cmd := cmd, state := ClientState.incomplete SET_KEY_LEN },
        Option.none)
    else if cmd.headD 0 = DELETE_KEY then
      Option.some ({ c with cmd := cmd, state := ClientState.incomplete DELETE_KEY_LEN },
        Option.none)
    else if cmd.headD 0 = SET_ROW then
      Option.some ({ c with cmd := cmd, state := ClientState.incomplete SET_ROW_LEN },
        Option.none)
    else if cmd.headD 0 = PAUSE then
      Option.some ({ c with cmd := cmd, state := ClientState.incomplete PAUSE_LEN },
        Option.none)
    else
      (processEvent { c with cmd := cmd, state := ClientState.complete }).map
        (fun pr => (pr.1, eventOf pr.2))
  | ClientState.incomplete n =>
    let cmd := c.cmd ++ [b]
    if n ≤ 1 then
      (processEvent { c with cmd := cmd, state := ClientState.complete }).map
        (fun pr => (pr.1, eventOf pr.2))
    else
      Option.some ({ c with cmd := cmd, state := ClientState.incomplete (n - 1) },
        Option.none)
  | ClientState.complete => Option.none

/-- Feed a byte list one byte at a time, collecting the events in order. -/
def feedAll : RocketClient → List ℕ → Option (RocketClient × List Event)
  | c, [] => Option.some (c, [])
  | c, b :: rest =>
    match feed1 c b with
    | Option.none => Option.none
    | Option.some (c2, ev) =>
      match feedAll c2 rest with
      | Option.none => Option.none
      | Option.some (c3, evs) => Option.some (c3, ev.toList ++ evs)

/-- Fixed body length the decoder associates to an opcode that enters the
incomplete state. -/
def bodyLen (op : ℕ) : Option ℕ :=
  if op = SET_KEY then Option.some SET_KEY_LEN
  else if op = DELETE_KEY then Option.some DELETE_KEY_LEN
  else if op = SET_ROW then Option.some SET_ROW_LEN
  else if op = PAUSE then Option.some PAUSE_LEN
  else Option.none

/-- Decoder consistency invariant holding between `poll_events` returns: the
state is never complete, the buffer is empty while awaiting an opcode, and in
the incomplete state the buffer holds the opcode plus a partial body with
exactly the announced positive number of bytes still missing. -/
def Inv (c : RocketClient) : Prop :=
  (c.state = ClientState.new → c.cmd = []) ∧
  (∀ n, c.state = ClientState.incomplete n →
    1 ≤ n ∧ ∃ op body, c.cmd = op :: body ∧ bodyLen op = Option.some (body.length + n)) ∧
  c.state ≠ ClientState.complete

/-- Fresh clients satisfy the decoder invariant. -/
theorem inv_initClient (tracks : List (Track ℕ)) : Inv (initClient tracks) := by
  refine ⟨fun _ => rfl, ?_, by simp [initClient]⟩
  intro n h
  simp [initClient] at h

/-- The non-recursive unfolding equation of `poll_events`. -/
theorem pollEvents_eq (c : RocketClient) (avail : List ℕ) :
    pollEvents c avail =
      match pollEvent c avail with
      | Option.none => Option.none
      | Option.some (c2, avail2, ReceiveResult.none) => Option.some (c2, avail2, Option.none)
      | Option.some (c2, avail2, ReceiveResult.some e) =>
        Option.some (c2, avail2, Option.some e)
      | Option.some (c2, avail2, ReceiveResult.incomplete) => pollEvents c2 avail2 := by
  rw [pollEvents]
  rcases hpe : pollEvent c avail with - | ⟨c2, avail2, rr⟩
  · rfl
  · rcases rr with e | - | - <;> rfl

/-- A client in the awaiting-opcode state with an empty buffer satisfies the
decoder invariant. -/
theorem inv_of_new {c : RocketClient} (h1 : c.state = ClientState.new)
    (h2 : c.cmd = []) : Inv c := by
  refine ⟨fun _ => h2, ?_, ?_⟩
  · intro n hn
    rw [h1] at hn
    simp at hn
  · rw [h1]
    simp

/-- With an empty byte queue, `poll_events` would-blocks and reports no
event, leaving the client untouched. -/
theorem pollEvents_nil {c : RocketClient} (hInv : Inv c) :
    pollEvents c [] = Option.some (c, [], Option.none) := by
  rw [pollEvents_eq]
  rcases hs : c.state with - | n | -
  · rw [pollEvent, hs]
    simp [pollEventNew]
  · rw [pollEvent, hs]
    simp [pollEventIncomplete]
  · exact absurd hs hInv.2.2

/-- The one-byte reference step preserves the decoder invariant. -/
theorem feed1_inv {c c2 : RocketClient} {b : ℕ} {ev : Option Event}
    (hInv : Inv c) (h : feed1 c b = Option.some (c2, ev)) : Inv c2 := by
  obtain ⟨hnew, hincomp, hncomp⟩ := hInv
  rcases hs : c.state with - | n | -
  · have hcmd : c.cmd = [] := hnew hs
    rw [feed1, hs, hcmd] at h
    simp only [List.nil_append, List.headD_cons] at h
    split at h
    · replace h := Option.some.inj h
      rw [Prod.mk.injEq] at h
      obtain ⟨hc, he⟩ := h
      rw [← hc]
      refine ⟨by simp, ?_, by simp⟩
      intro m hm
      simp only at hm
      injection hm with hm
      subst hm
      refine ⟨by simp [SET_KEY_LEN], b, [], rfl, ?_⟩
      simp_all [bodyLen]
    · split at h
      · replace h := Option.some.inj h
        rw [Prod.mk.injEq] at h
        obtain ⟨hc, he⟩ := h
        rw [← hc]
        refine ⟨by simp, ?_, by simp⟩
        intro m hm
        simp only at hm
        injection hm with hm
        subst hm
        refine ⟨by simp [DELETE_KEY_LEN], b, [], rfl, ?_⟩
        simp_all [bodyLen]
      · split at h
        · replace h := Option.some.inj h
          rw [Prod.mk.injEq] at h
          obtain ⟨hc, he⟩ := h
          rw [← hc]
          refine ⟨by simp, ?_, by simp⟩
          intro m hm
          simp only at hm
          injection hm with hm
          subst hm
          refine ⟨by simp [SET_ROW_LEN], b, [], rfl, ?_⟩
          simp_all [bodyLen]
        · split at h
          · replace h := Option.some.inj h
            rw [Prod.mk.injEq] at h
            obtain ⟨hc, he⟩ := h
            rw [← hc]
            refine ⟨by simp, ?_, by simp⟩
            intro m hm
            simp only at hm
            injection hm with hm
            subst hm
            refine ⟨by simp [PAUSE_LEN], b, [], rfl, ?_⟩
            simp_all [bodyLen]
          · rcases hp : processEvent { c with cmd := [b], state := ClientState.complete }
              with - | ⟨c3, rr⟩
            · rw [hp] at h
              simp at h
            · rw [hp] at h
              simp only [Option.map_some', Option.some.injEq, Prod.mk.injEq] at h
              obtain ⟨h1, -⟩ := h
              obtain ⟨-, hst, hcm⟩ := processEvent_spec hp
              rw [← h1]
              exact inv_of_new hst hcm
  · obtain ⟨hn1, op, body, hcmd, hbl⟩ := hincomp n hs
    rw [feed1, hs] at h
    simp only [] at h
    split at h
    · rcases hp : processEvent { c with cmd := c.cmd ++ [b], state := ClientState.complete }
        with - | ⟨c3, rr⟩
      · rw [hp] at h
        simp at h
      · rw [hp] at h
        simp only [Option.map_some', Option.some.injEq, Prod.mk.injEq] at h
        obtain ⟨h1, -⟩ := h
        obtain ⟨-, hst, hcm⟩ := processEvent_spec hp
        rw [← h1]
        exact inv_of_new hst hcm
    · replace h := Option.some.inj h
      rw [Prod.mk.injEq] at h
      obtain ⟨hc, he⟩ := h
      rw [← hc]
      refine ⟨by simp, ?_, by simp⟩
      intro m hm
      simp only at hm
      injection hm with hm
      subst hm
      refine ⟨by omega, op, body ++ [b], by rw [hcmd]; simp, ?_⟩
      rw [hbl, List.length_append]
      simp only [List.length_cons, List.length_nil, Option.some.injEq]
      omega
  · exact absurd hs hncomp

/-- From the complete state, `poll_events` runs `process_event` and returns
its result without touching the byte queue. -/
theorem pollEvents_complete {c : RocketClient} (hs : c.state = ClientState.complete)
    (avail : List ℕ) :
    pollEvents c avail =
      match processEvent c with
      | Option.none => Option.none
      | Option.some (c3, rr) => Option.some (c3, avail, eventOf rr) := by
  rw [pollEvents_eq, pollEvent, hs]
  rcases hp : processEvent c with - | ⟨c3, rr⟩
  · rfl
  · have hni := (processEvent_spec hp).1
    simp only [Option.map_some']
    rcases rr with e | - | -
    · rfl
    · rfl
    · exact absurd rfl hni

/-- From the complete state, `poll_events` behaves like the tail of the
one-byte reference step. -/
theorem pollEvents_after_complete {c : RocketClient}
    (hs : c.state = ClientState.complete) (rest : List ℕ) :
    pollEvents c rest =
      match (processEvent c).map (fun pr => (pr.1, eventOf pr.2)) with
      | Option.none => Option.none
      | Option.some (c2, Option.some e) => Option.some (c2, rest, Option.some e)
      | Option.some (c2, Option.none) =>
        match c2.state with
        | ClientState.new => Option.some (c2, rest, Option.none)
        | _ => pollEvents c2 rest := by
  rw [pollEvents_complete hs rest]
  rcases hp : processEvent c with - | ⟨c3, rr⟩
  · rfl
  · simp only [Option.map_some']
    rcases rr with e | - | -
    · rfl
    · have hst := (processEvent_spec hp).2.1
      simp only [eventOf]
      rw [hst]
    · exact absurd rfl (processEvent_spec hp).1

/-- Under the decoder invariant, one `poll_events` call on a nonempty queue
is the one-byte reference step followed by the remaining loop: an
application event or a completed non-event frame returns at once (leaving
the rest of the queue pending), while a mid-frame byte keeps reading. -/
theorem pollEvents_cons {c : RocketClient} (hInv : Inv c) (b : ℕ) (rest : List ℕ) :
    pollEvents c (b :: rest) =
      match feed1 c b with
      | Option.none => Option.none
      | Option.some (c2, Option.some e) => Option.some (c2, rest, Option.some e)
      | Option.some (c2, Option.none) =>
        match c2.state with
        | ClientState.new => Option.some (c2, rest, Option.none)
        | _ => pollEvents c2 rest := by
  obtain ⟨hnew, hincomp, hncomp⟩ := hInv
  rcases hs : c.state with - | n | -
  · have hcmd := hnew hs
    rw [pollEvents_eq, pollEvent, feed1, hs]
    simp only [pollEventNew, hcmd, List.nil_append, List.headD_cons]
    by_cases hb0 : b = SET_KEY
    · subst hb0
      simp
    · rw [if_neg hb0, if_neg hb0]
      by_cases hb1 : b = DELETE_KEY
      · subst hb1
        simp
      · rw [if_neg hb1, if_neg hb1]
        by_cases hb2 : b = SET_ROW
        · subst hb2
          simp
        · rw [if_neg hb2, if_neg hb2]
          by_cases hb3 : b = PAUSE
          · subst hb3
            simp
          · rw [if_neg hb3, if_neg hb3]
            exact pollEvents_after_complete rfl rest
  · obtain ⟨hn1, op, body, hcmdeq, hbl⟩ := hincomp n hs
    rw [pollEvents_eq, pollEvent, feed1, hs]
    simp only [pollEventIncomplete]
    rcases Nat.lt_or_ge n 2 with hn2 | hn2
    · have hn : n = 1 := by omega
      subst hn
      have hmin : min 1 (b :: rest).length = 1 := by
        simp only [List.length_cons]
        omega
      rw [hmin]
      simp only [List.take_succ_cons, List.take_zero, List.drop_succ_cons, List.drop_zero]
      rw [if_neg (show ¬(1 - 1 > 0) by omega), if_pos (show (1 : ℕ) ≤ 1 by omega)]
      exact pollEvents_after_complete rfl rest
    · rw [if_neg (show ¬(n ≤ 1) by omega)]
      rcases rest with - | ⟨r2, rest2⟩
      · have hmin : min n ([b] : List ℕ).length = 1 := by
          simp only [List.length_singleton]
          omega
        rw [hmin]
        simp only [List.take_succ_cons, List.take_zero, List.drop_succ_cons, List.drop_zero]
        rw [if_pos (show n - 1 > 0 by omega)]
      · apply Eq.symm
        simp only []
        rw [pollEvents_eq, pollEvent]
        simp only [pollEventIncomplete]
        have hmin : min n (b :: r2 :: rest2).length =
            min (n - 1) ((r2 :: rest2).length) + 1 := by
          simp only [List.length_cons]
          omega
        rw [hmin]
        simp only [List.take_succ_cons, List.drop_succ_cons, List.append_assoc,
          List.singleton_append]
        rw [show n - (min (n - 1) ((r2 :: rest2).length) + 1) =
            (n - 1) - min (n - 1) ((r2 :: rest2).length) from by omega]
  · exact absurd hs hncomp

/-- Rank for the driver termination measure. -/
def rank2 : ClientState → ℕ
  | ClientState.complete => 1
  | _ => 0

/-- Termination measure of the repeated-`poll_events` driver. -/
def drainMeasure (c : RocketClient) (avail : List ℕ) : ℕ :=
  2 * avail.length + rank2 c.state

/-- The driver rank is at most one. -/
theorem rank2_le_one (s : ClientState) : rank2 s ≤ 1 := by
  cases s <;> simp [rank2]

/-- Repeatedly call `poll_events` until no further byte is consumed and no
further event is produced, collecting the events in order — the
"keep calling poll_events until the stream is exhausted" driver. The guards
compare the termination measure; on every state reachable from a fresh
client they are exactly "the call made progress", as the invariant-based
lemmas below show. -/
def drain (c : RocketClient) (avail : List ℕ) : Option (RocketClient × List Event) :=
  match pollEvents c avail with
  | Option.none => Option.none
  | Option.some (c2, avail2, Option.some e) =>
    if h2 : drainMeasure c2 avail2 < drainMeasure c avail then
      match drain c2 avail2 with
      | Option.none => Option.none
      | Option.some (c3, evs) => Option.some (c3, e :: evs)
    else Option.some (c2, [e])
  | Option.some (c2, avail2, Option.none) =>
    if h2 : drainMeasure c2 avail2 < drainMeasure c avail then drain c2 avail2
    else Option.some (c2, [])
termination_by drainMeasure c avail
decreasing_by
  · exact h2
  · exact h2

/-- Deliver the byte stream in successive chunks, draining after each
delivery, and concatenate the events observed. -/
def drainChunks : RocketClient → List (List ℕ) → Option (RocketClient × List Event)
  | c, [] => Option.some (c, [])
  | c, chunk :: chunks =>
    match drain c chunk with
    | Option.none => Option.none
    | Option.some (c2, evs) =>
      match drainChunks c2 chunks with
      | Option.none => Option.none
      | Option.some (c3, evs2) => Option.some (c3, evs ++ evs2)

/-- Under the decoder invariant, a successful `poll_events` preserves the
invariant and consumes part of the queue, except for the blocked case on the
empty queue which returns everything unchanged. -/
theorem pollEvents_inv_spec {c : RocketClient} (hInv : Inv c) :
    ∀ {avail c2 avail2 ev}, pollEvents c avail = Option.some (c2, avail2, ev) →
      Inv c2 ∧ avail2.length ≤ avail.length ∧
        (avail2.length < avail.length ∨
          (c2 = c ∧ avail2 = avail ∧ ev = Option.none ∧ avail = ([] : List ℕ))) := by
  intro avail
  induction avail generalizing c with
  | nil =>
    intro c2 avail2 ev h
    rw [pollEvents_nil hInv] at h
    simp only [Option.some.injEq, Prod.mk.injEq] at h
    obtain ⟨h1, h2, h3⟩ := h
    subst h1
    subst h2
    subst h3
    exact ⟨hInv, le_refl 0, Or.inr ⟨rfl, rfl, rfl, rfl⟩⟩
  | cons b rest ih =>
    intro c2 avail2 ev h
    rw [pollEvents_cons hInv] at h
    rcases hf : feed1 c b with - | ⟨c1, ev1⟩
    · rw [hf] at h
      simp at h
    · rw [hf] at h
      have hInv1 : Inv c1 := feed1_inv hInv hf
      rcases ev1 with - | e
      · simp only [] at h
        rcases hs1 : c1.state with - | m | -
        · rw [hs1] at h
          simp only [Option.some.injEq, Prod.mk.injEq] at h
          obtain ⟨h1, h2, h3⟩ := h
          subst h1
          subst h2
          refine ⟨hInv1, by simp, Or.inl (by simp)⟩
        · rw [hs1] at h
          simp only at h
          obtain ⟨hI2, hle, -⟩ := ih hInv1 h
          exact ⟨hI2, by simp only [List.length_cons]; omega,
            Or.inl (by simp only [List.length_cons]; omega)⟩
        · exact absurd hs1 hInv1.2.2
      · simp only [Option.some.injEq, Prod.mk.injEq] at h
        obtain ⟨h1, h2, h3⟩ := h
        subst h1
        subst h2
        refine ⟨hInv1, by simp, Or.inl (by simp)⟩

/-- `rank2` vanishes away from the complete state. -/
theorem rank2_eq_zero {s : ClientState} (h : s ≠ ClientState.complete) : rank2 s = 0 := by
  cases s
  · rfl
  · rfl
  · exact absurd rfl h

/-- A blocked driver call returns the client unchanged with no events. -/
theorem drain_nil {c : RocketClient} (hInv : Inv c) :
    drain c [] = Option.some (c, []) := by
  rw [drain, pollEvents_nil hInv]
  simp only []
  rw [dif_neg (lt_irrefl _)]

/-- `feedAll` on a cons whose first byte completes no event. -/
theorem feedAll_cons_none {c c1 : RocketClient} {b : ℕ}
    (hf : feed1 c b = Option.some (c1, Option.none)) (rest : List ℕ) :
    feedAll c (b :: rest) = feedAll c1 rest := by
  rw [feedAll, hf]
  rcases hfa : feedAll c1 rest with - | ⟨c3, evs⟩ <;> simp [hfa]

/-- `feedAll` on a cons whose first byte completes an event. -/
theorem feedAll_cons_some {c c1 : RocketClient} {b : ℕ} {e : Event}
    (hf : feed1 c b = Option.some (c1, Option.some e)) (rest : List ℕ) :
    feedAll c (b :: rest) =
      match feedAll c1 rest with
      | Option.none => Option.none
      | Option.some (c3, evs) => Option.some (c3, e :: evs) := by
  rw [feedAll, hf]
  rcases hfa : feedAll c1 rest with - | ⟨c3, evs⟩ <;> simp [hfa]

/-- `feedAll` on a cons whose first byte panics. -/
theorem feedAll_cons_panic {c : RocketClient} {b : ℕ}
    (hf : feed1 c b = Option.none) (rest : List ℕ) :
    feedAll c (b :: rest) = Option.none := by
  rw [feedAll, hf]

/-- On every client satisfying the decoder invariant, the
repeated-`poll_events` driver computes exactly the one-byte-at-a-time
reference run. -/
theorem drain_eq_feedAll {c : RocketClient} (hInv : Inv c) :
    ∀ avail, drain c avail = feedAll c avail := by
  intro avail
  induction avail generalizing c with
  | nil =>
    rw [drain_nil hInv]
    rfl
  | cons b rest ih =>
    have hPE := pollEvents_cons hInv b rest
    rcases hf : feed1 c b with - | ⟨c1, ev1⟩
    · rw [hf] at hPE
      simp only [] at hPE
      rw [drain, hPE, feedAll_cons_panic hf]
    · rw [hf] at hPE
      have hInv1 : Inv c1 := feed1_inv hInv hf
      rcases ev1 with - | e
      · simp only [] at hPE
        rcases hs1 : c1.state with - | m | -
        · rw [hs1] at hPE
          rw [drain, hPE]
          simp only []
          rw [dif_pos ?g1]
          case g1 =>
            unfold drainMeasure
            have h0 : rank2 c1.state = 0 := by
              rw [hs1]
              rfl
            simp only [List.length_cons]
            omega
          rw [ih hInv1, feedAll_cons_none hf]
        · rw [hs1] at hPE
          rw [drain, hPE, feedAll_cons_none hf, ← ih hInv1]
          rcases hpe2 : pollEvents c1 rest with - | ⟨c2, avail2, ev⟩
          · simp only []
            rw [drain, hpe2]
          · obtain ⟨hI2, hle, hdis⟩ := pollEvents_inv_spec hInv1 hpe2
            have hr2 : rank2 c2.state = 0 := rank2_eq_zero hI2.2.2
            rcases ev with - | e
            · simp only []
              rcases hdis with hlt | ⟨h21, h22, -, hrnil⟩
              · rw [dif_pos ?g2]
                case g2 =>
                  unfold drainMeasure
                  simp only [List.length_cons]
                  omega
                apply Eq.symm
                rw [drain, hpe2]
                simp only []
                rw [dif_pos ?g3]
                case g3 =>
                  unfold drainMeasure
                  omega
              · subst h21
                subst hrnil
                have h220 : avail2 = [] := h22
                subst h220
                rw [dif_pos ?g4]
                case g4 =>
                  unfold drainMeasure
                  simp only [List.length_cons, List.length_nil]
                  omega
            · simp only []
              have hlt : avail2.length < rest.length := by
                rcases hdis with hlt | ⟨-, -, hev, -⟩
                · exact hlt
                · simp at hev
              rw [dif_pos ?g5]
              case g5 =>
                unfold drainMeasure
                simp only [List.length_cons]
                omega
              apply Eq.symm
              rw [drain, hpe2]
              simp only []
              rw [dif_pos ?g6]
              case g6 =>
                unfold drainMeasure
                omega
        · exact absurd hs1 hInv1.2.2
      · rw [drain, hPE]
        simp only []
        rw [dif_pos ?g7]
        case g7 =>
          unfold drainMeasure
          have h0 : rank2 c1.state = 0 := rank2_eq_zero hInv1.2.2
          simp only [List.length_cons]
          omega
        rw [ih hInv1, feedAll_cons_some hf]

/-- The one-byte reference run preserves the decoder invariant. -/
theorem feedAll_inv {bs : List ℕ} :
    ∀ {c c2 : RocketClient} {evs : List Event}, Inv c →
      feedAll c bs = Option.some (c2, evs) → Inv c2 := by
  induction bs with
  | nil =>
    intro c c2 evs hInv h
    rw [feedAll] at h
    simp only [Option.some.injEq, Prod.mk.injEq] at h
    rw [← h.1]
    exact hInv
  | cons b rest ih =>
    intro c c2 evs hInv h
    rw [feedAll] at h
    rcases hf : feed1 c b with - | ⟨c1, ev⟩
    · rw [hf] at h
      simp at h
    · rw [hf] at h
      simp only [] at h
      rcases hfa : feedAll c1 rest with - | ⟨c3, evs2⟩
      · rw [hfa] at h
        simp at h
      · rw [hfa] at h
        simp only [Option.some.injEq, Prod.mk.injEq] at h
        rw [← h.1]
        exact ih (feed1_inv hInv hf) hfa

/-- Feeding a concatenation is feeding the parts in order. -/
theorem feedAll_append (xs : List ℕ) :
    ∀ (c : RocketClient) (ys : List ℕ),
      feedAll c (xs ++ ys) =
        match feedAll c xs with
        | Option.none => Option.none
        | Option.some (c2, evs) =>
          match feedAll c2 ys with
          | Option.none => Option.none
          | Option.some (c3, evs2) => Option.some (c3, evs ++ evs2) := by
  induction xs with
  | nil =>
    intro c ys
    simp only [List.nil_append, feedAll]
    rcases hfa : feedAll c ys with - | ⟨c3, evs⟩ <;> simp
  | cons b rest ih =>
    intro c ys
    simp only [List.cons_append]
    rw [feedAll]
    conv_rhs => rw [feedAll]
    rcases hf : feed1 c b with - | ⟨c1, ev⟩
    · simp only []
    · simp only []
      rw [ih c1 ys]
      rcases hfa : feedAll c1 rest with - | ⟨c3, evs2⟩
      · simp only []
      · simp only []
        rcases hfb : feedAll c3 ys with - | ⟨c4, evs3⟩
        · simp only []
        · simp only [List.append_assoc]

/-- Chunked delivery computes the one-byte reference run of the whole
stream. -/
theorem drainChunks_eq_feedAll {c : RocketClient} (hInv : Inv c) :
    ∀ chunks : List (List ℕ), drainChunks c chunks = feedAll c chunks.join := by
  intro chunks
  induction chunks generalizing c with
  | nil => rfl
  | cons ch chs ih =>
    rw [drainChunks, drain_eq_feedAll hInv ch]
    have hj : (ch :: chs).join = ch ++ chs.join := rfl
    rw [hj, feedAll_append ch c chs.join]
    rcases hfa : feedAll c ch with - | ⟨c2, evs⟩
    · rfl
    · simp only []
      rw [ih (feedAll_inv hInv hfa)]

/-- C3: chunking invariance of the decoder. For every fresh client (any
already-created track vector) and every way of splitting a byte stream into
successive chunks, repeatedly calling `poll_events` until each delivered
chunk is exhausted produces the same outcome — the same event sequence, the
same final client (hence bitwise-identical track state), and a panic if and
only if the whole stream panics — as delivering the entire stream in one
contiguous read. -/
theorem c3_chunking_invariance (tracks : List (Track ℕ)) (chunks : List (List ℕ)) :
    drainChunks (initClient tracks) chunks = drain (initClient tracks) chunks.join := by
  rw [drainChunks_eq_feedAll (inv_initClient tracks) chunks,
    drain_eq_feedAll (inv_initClient tracks) chunks.join]

/-- C4: an opcode byte other than SET_KEY(0), DELETE_KEY(1), SET_ROW(3),
PAUSE(4) or SAVE_TRACKS(5), read in the awaiting-opcode state, acts as a
frame with a zero-length body: it produces no application event and no
error, leaves every track unchanged, returns the decoder to the
awaiting-opcode state with an empty buffer (the client is bitwise the fresh
client again), and the remaining stream is parsed exactly as it would be
without the unknown byte. -/
theorem c4_unknown_opcode (tracks : List (Track ℕ)) (b : ℕ) (rest : List ℕ)
    (h0 : b ≠ SET_KEY) (h1 : b ≠ DELETE_KEY) (h3 : b ≠ SET_ROW) (h4 : b ≠ PAUSE)
    (h5 : b ≠ SAVE_TRACKS) :
    feed1 (initClient tracks) b = Option.some (initClient tracks, Option.none) ∧
    drain (initClient tracks) (b :: rest) = drain (initClient tracks) rest := by
  have hfeed : feed1 (initClient tracks) b =
      Option.some (initClient tracks, Option.none) := by
    rw [feed1]
    simp only [initClient, List.nil_append, List.headD_cons]
    rw [if_neg h0, if_neg h1, if_neg h3, if_neg h4]
    rw [processEvent]
    simp only [readU8]
    rw [processBody]
    rw [if_neg h0, if_neg h1, if_neg h3, if_neg h4, if_neg h5]
    rfl
  refine ⟨hfeed, ?_⟩
  rw [drain_eq_feedAll (inv_initClient tracks), drain_eq_feedAll (inv_initClient tracks),
    feedAll_cons_none hfeed]

/-- Witness for C4 at the unknown opcode byte 2 (GET_TRACK, which only the
client sends) followed by a valid SET_ROW frame for row 7, checking that the
frame after the unknown byte still parses. -/
theorem c4_witness :
    (feed1 (initClient []) 2 = Option.some (initClient [], Option.none) ∧
      drain (initClient []) (2 :: [3, 0, 0, 0, 7]) = drain (initClient []) [3, 0, 0, 0, 7]) ∧
    drain (initClient []) [3, 0, 0, 0, 7] =
      Option.some (initClient [], [Event.setRow 7]) := by
  refine ⟨c4_unknown_opcode [] 2 [3, 0, 0, 0, 7] (by decide) (by decide) (by decide)
    (by decide) (by decide), ?_⟩
  rw [drain_eq_feedAll (inv_initClient [])]
  rfl

/-- Big-endian `u32` encoding of a number below `2 ^ 32`. -/
def encodeU32 (n : ℕ) : List ℕ :=
  [n / 2 ^ 24 % 256, n / 2 ^ 16 % 256, n / 2 ^ 8 % 256, n % 256]

/-- A complete SET_KEY wire frame. -/
def setKeyFrame (index row value interp : ℕ) : List ℕ :=
  SET_KEY :: (encodeU32 index ++ encodeU32 row ++ encodeU32 value ++ [interp])

/-- A complete DELETE_KEY wire frame. -/
def deleteKeyFrame (index row : ℕ) : List ℕ :=
  DELETE_KEY :: (encodeU32 index ++ encodeU32 row)

/-- `readU32` undoes `encodeU32` below `2 ^ 32`. -/
theorem readU32_encodeU32 (n : ℕ) (hn : n < 2 ^ 32) (tail : List ℕ) :
    readU32 (encodeU32 n ++ tail) = Option.some (n, tail) := by
  simp only [encodeU32, List.cons_append, List.nil_append, readU32, Option.some.injEq,
    Prod.mk.injEq]
  refine ⟨?_, trivial⟩
  have h24 : (2 : ℕ) ^ 24 = 16777216 := by norm_num
  have h16 : (2 : ℕ) ^ 16 = 65536 := by norm_num
  have h8 : (2 : ℕ) ^ 8 = 256 := by norm_num
  have h32 : (2 : ℕ) ^ 32 = 4294967296 := by norm_num
  rw [h24, h16, h8]
  rw [h32] at hn
  omega

/-- Feeding exactly the announced number of missing body bytes completes the
frame and runs `process_event` on the accumulated command buffer. -/
theorem feedAll_body (tracks : List (Track ℕ)) :
    ∀ (bs : List ℕ) (cmd : List ℕ) (n : ℕ), n = bs.length → 1 ≤ n →
      feedAll ⟨ClientState.incomplete n, cmd, tracks⟩ bs =
        match processEvent ⟨ClientState.complete, cmd ++ bs, tracks⟩ with
        | Option.none => Option.none
        | Option.some (c2, rr) => Option.some (c2, (eventOf rr).toList) := by
  intro bs
  induction bs with
  | nil =>
    intro cmd n hn h1
    rw [hn] at h1
    simp at h1
  | cons b rest ih =>
    intro cmd n hn h1
    rw [feedAll, feed1]
    simp only []
    rcases rest with - | ⟨b2, rest2⟩
    · have hn1 : n = 1 := by
        rw [hn]
        rfl
      subst hn1
      rw [if_pos (le_refl 1)]
      rcases hp : processEvent ⟨ClientState.complete, cmd ++ [b], tracks⟩ with - | ⟨c2, rr⟩
      · rfl
      · simp only [Option.map_some']
        rw [feedAll]
        simp
    · have hn2 : ¬(n ≤ 1) := by
        rw [hn]
        simp only [List.length_cons]
        omega
      rw [if_neg hn2]
      simp only []
      rw [ih (cmd ++ [b]) (n - 1) (by rw [hn]; simp only [List.length_cons]; omega)
        (by rw [hn]; simp only [List.length_cons]; omega)]
      rw [show (cmd ++ [b]) ++ (b2 :: rest2) = cmd ++ (b :: b2 :: rest2) from by
        rw [List.append_assoc]
        rfl]
      rcases hp : processEvent ⟨ClientState.complete, cmd ++ (b :: b2 :: rest2), tracks⟩
        with - | ⟨c2, rr⟩
      · rfl
      · simp

/-- C10: a complete SET_KEY or DELETE_KEY frame carrying a track index at or
past the end of the client track vector panics when processed: in both command
arms the dispatch hits the unchecked indexing `&mut self.tracks[index]` and
the whole driver run aborts (`none`); the decoder performs no validation of
the server-supplied index before using it. -/
theorem c10_set_key_index_panic (tracks : List (Track ℕ)) (index row value interp : ℕ)
    (hidx : tracks.length ≤ index) (hlt : index < 2 ^ 32) :
    processBody SET_KEY (encodeU32 index ++ encodeU32 row ++ encodeU32 value ++ [interp])
      tracks = Option.none ∧
    drain (initClient tracks) (setKeyFrame index row value interp) = Option.none ∧
    processBody DELETE_KEY (encodeU32 index ++ encodeU32 row) tracks = Option.none ∧
    drain (initClient tracks) (deleteKeyFrame index row) = Option.none := by
  have hbody : processBody SET_KEY
      (encodeU32 index ++ encodeU32 row ++ encodeU32 value ++ [interp]) tracks =
      Option.none := by
    rw [processBody, if_pos rfl]
    rw [List.append_assoc, List.append_assoc]
    rw [readU32_encodeU32 index hlt (encodeU32 row ++ (encodeU32 value ++ [interp]))]
    simp only []
    rw [dif_neg (by omega)]
  have hbodyD : processBody DELETE_KEY (encodeU32 index ++ encodeU32 row) tracks =
      Option.none := by
    rw [processBody, if_neg (by decide), if_pos rfl]
    rw [readU32_encodeU32 index hlt (encodeU32 row)]
    simp only []
    rw [dif_neg (by omega)]
  refine ⟨hbody, ?_, hbodyD, ?_⟩
  · rw [drain_eq_feedAll (inv_initClient tracks)]
    rw [show setKeyFrame index row value interp =
        SET_KEY :: (encodeU32 index ++ encodeU32 row ++ encodeU32 value ++ [interp]) from rfl]
    rw [feedAll]
    rw [show feed1 (initClient tracks) SET_KEY =
        Option.some (⟨ClientState.incomplete 13, [SET_KEY], tracks⟩, Option.none) from rfl]
    simp only []
    rw [feedAll_body tracks (encodeU32 index ++ encodeU32 row ++ encodeU32 value ++ [interp])
      [SET_KEY] 13 (by simp [encodeU32]) (by omega)]
    rw [show processEvent ⟨ClientState.complete,
        [SET_KEY] ++ (encodeU32 index ++ encodeU32 row ++ encodeU32 value ++ [interp]),
        tracks⟩ = Option.none from by
      rw [processEvent]
      simp only [List.singleton_append, readU8]
      rw [hbody]]
  · rw [drain_eq_feedAll (inv_initClient tracks)]
    rw [show deleteKeyFrame index row =
        DELETE_KEY :: (encodeU32 index ++ encodeU32 row) from rfl]
    rw [feedAll]
    rw [show feed1 (initClient tracks) DELETE_KEY =
        Option.some (⟨ClientState.incomplete 8, [DELETE_KEY], tracks⟩, Option.none) from rfl]
    simp only []
    rw [feedAll_body tracks (encodeU32 index ++ encodeU32 row)
      [DELETE_KEY] 8 (by simp [encodeU32]) (by omega)]
    rw [show processEvent ⟨ClientState.complete,
        [DELETE_KEY] ++ (encodeU32 index ++ encodeU32 row),
        tracks⟩ = Option.none from by
      rw [processEvent]
      simp only [List.singleton_append, readU8]
      rw [hbodyD]]

/-- Witness for C10 at tracks = [], index = 0, for both frame kinds. -/
theorem c10_witness :
    ([] : List (Track ℕ)).length ≤ 0 ∧ (0 : ℕ) < 2 ^ 32 ∧
    (processBody SET_KEY (encodeU32 0 ++ encodeU32 0 ++ encodeU32 0 ++ [0])
        ([] : List (Track ℕ)) = Option.none ∧
      drain (initClient ([] : List (Track ℕ))) (setKeyFrame 0 0 0 0) = Option.none ∧
      processBody DELETE_KEY (encodeU32 0 ++ encodeU32 0) ([] : List (Track ℕ)) =
        Option.none ∧
      drain (initClient ([] : List (Track ℕ))) (deleteKeyFrame 0 0) = Option.none) :=
  ⟨by decide, by norm_num,
    c10_set_key_index_panic [] 0 0 0 0 (by decide) (by norm_num)⟩

/-! ## Handshake (client.rs lines 106-107 and 469-482) -/

/-- The bytes of `b"hello, synctracker!"` (client.rs line 106). -/
def CLIENT_GREETING : List ℕ :=
  [104, 101, 108, 108, 111, 44, 32, 115, 121, 110, 99, 116, 114, 97, 99, 107, 101, 114, 33]

/-- The bytes of `b"hello, demo!"` (client.rs line 107). -/
def SERVER_GREETING : List ℕ :=
  [104, 101, 108, 108, 111, 44, 32, 100, 101, 109, 111, 33]

/-- Outcome of `RocketClient::handshake`. -/
inductive HandshakeResult where
  | ok : HandshakeResult
  | ioError : HandshakeResult
  | greetingMismatch : List ℕ → HandshakeResult
deriving DecidableEq

/-- `RocketClient::handshake` (client.rs lines 469-482) over an explicit input
byte stream: returns the bytes written to the socket, the number of bytes the
`read_exact` call consumes, and the result. A stream shorter than
`SERVER_GREETING.len()` makes `read_exact` fail with an io error. -/
def handshake (input : List ℕ) : List ℕ × ℕ × HandshakeResult :=
  if SERVER_GREETING.length ≤ input.length then
    if input.take SERVER_GREETING.length = SERVER_GREETING then
      (CLIENT_GREETING, SERVER_GREETING.length, HandshakeResult.ok)
    else
      (CLIENT_GREETING, SERVER_GREETING.length,
        HandshakeResult.greetingMismatch (input.take SERVER_GREETING.length))
  else (CLIENT_GREETING, input.length, HandshakeResult.ioError)

/-- `RocketClient::connect` (client.rs lines 217-235) restricted to the
handshake step: any handshake error propagates and no client is produced. -/
def connect (input : List ℕ) : Option Unit :=
  match (handshake input).2.2 with
  | HandshakeResult.ok => Option.some ()
  | _ => Option.none

/-! ## The high-level session (rocket.rs) -/

def ROWS_PER_BEAT : ℚ := 8

/-- The `Rocket` session state (rocket.rs lines 134-144) with the `client`
feature enabled; the live TCP client is abstracted to `Option Unit` and the
track collection to its underlying list. -/
structure SRocket where
  bps : ℚ
  row : ℚ
  tracks : List (Track ℚ)
  tracker_row : ℕ
  client : Option Unit

/-- `Rocket::set_time` (rocket.rs lines 202-221). The boolean `sendOk` models
whether the `client.set_row(row)` socket write succeeds; the second component
is the SET_ROW payload handed to the client, `none` when no send is attempted. -/
def set_time (s : SRocket) (time : ℚ) (sendOk : Bool) : SRocket × Option ℕ :=
  let beat := time * s.bps
  let rowF := beat * ROWS_PER_BEAT
  let s1 : SRocket := ⟨s.bps, rowF, s.tracks, s.tracker_row, s.client⟩
  match s1.client with
  | Option.none => (s1, Option.none)
  | Option.some _ =>
    if floorToU32 rowF ≠ s1.tracker_row then
      if sendOk then
        (⟨s1.bps, s1.row, s1.tracks, floorToU32 rowF, s1.client⟩, Option.some (floorToU32 rowF))
      else
        (⟨s1.bps, s1.row, s1.tracks, s1.tracker_row, Option.none⟩, Option.some (floorToU32 rowF))
    else (s1, Option.none)

/-- `Tracks::get_track` (lowlevel.rs lines 24-26): linear search by name. -/
def get_track (tracks : List (Track ℚ)) (name : ℕ) : Option (Track ℚ) :=
  tracks.find? (fun t => t.name == name)

/-- The `None =>` arm of the client match in `Rocket::get_value`
(rocket.rs lines 186-189), taken when `self.client` is `None`: look the track
up by name and fall back to 0 when it is absent. -/
def get_value_disconnected (s : SRocket) (name : ℕ) : ℚ :=
  match get_track s.tracks name with
  | Option.some t => t.get_value s.row
  | Option.none => 0

/-- C7 counterexample: the two greetings do NOT have equal length. The client
writes the 19-byte `CLIENT_GREETING` and then reads exactly
`SERVER_GREETING.length = 12` bytes, so the greeting it reads is shorter than
the one it wrote, contradicting the claimed equal length. -/
theorem c7_counterexample :
    (handshake SERVER_GREETING).1 = CLIENT_GREETING ∧
    (handshake SERVER_GREETING).2.1 = SERVER_GREETING.length ∧
    CLIENT_GREETING.length = 19 ∧ SERVER_GREETING.length = 12 ∧
    CLIENT_GREETING.length ≠ SERVER_GREETING.length := by
  decide

/-- C7 (amended): during connection establishment the client writes its fixed
19-byte ASCII greeting and then reads exactly `SERVER_GREETING.length = 12`
bytes, the length of the EXPECTED SERVER greeting (not of the greeting it
wrote); if the received bytes differ from the expected server greeting the
handshake fails with a greeting-mismatch error carrying the received buffer,
and no connected client is produced. -/
theorem c7_handshake (input : List ℕ) (hlen : SERVER_GREETING.length ≤ input.length) :
    (handshake input).1 = CLIENT_GREETING ∧
    (handshake input).2.1 = SERVER_GREETING.length ∧
    (input.take SERVER_GREETING.length = SERVER_GREETING →
      (handshake input).2.2 = HandshakeResult.ok ∧ connect input = Option.some ()) ∧
    (input.take SERVER_GREETING.length ≠ SERVER_GREETING →
      (handshake input).2.2 =
        HandshakeResult.greetingMismatch (input.take SERVER_GREETING.length) ∧
      connect input = Option.none) := by
  rcases hm : decide (input.take SERVER_GREETING.length = SERVER_GREETING) with - | -
  · have hm2 : ¬(input.take SERVER_GREETING.length = SERVER_GREETING) := of_decide_eq_false hm
    refine ⟨?_, ?_, ?_, ?_⟩
    · rw [handshake, if_pos hlen, if_neg hm2]
    · rw [handshake, if_pos hlen, if_neg hm2]
    · intro h
      exact absurd h hm2
    · intro h
      constructor
      · rw [handshake, if_pos hlen, if_neg hm2]
      · rw [connect, handshake, if_pos hlen, if_neg hm2]
  · have hm2 : input.take SERVER_GREETING.length = SERVER_GREETING := of_decide_eq_true hm
    refine ⟨?_, ?_, ?_, ?_⟩
    · rw [handshake, if_pos hlen, if_pos hm2]
    · rw [handshake, if_pos hlen, if_pos hm2]
    · intro h
      constructor
      · rw [handshake, if_pos hlen, if_pos hm2]
      · rw [connect, handshake, if_pos hlen, if_pos hm2]
    · intro h
      exact absurd hm2 h

/-- Witness for C7 on the input stream that delivers exactly the expected
server greeting. -/
theorem c7_witness :
    SERVER_GREETING.length ≤ SERVER_GREETING.length ∧
    (handshake SERVER_GREETING).2.2 = HandshakeResult.ok ∧
    connect SERVER_GREETING = Option.some () :=
  ⟨le_refl _, (c7_handshake SERVER_GREETING (le_refl _)).2.2.1 (by decide)⟩

/-- C8: with a live client, `set_time` hands a SET_ROW message to the client
exactly when the newly computed row, converted to u32, differs from
`tracker_row`, the last row sent; when the row is unchanged nothing is sent
and the only field of the session that changes is the row cursor. -/
theorem c8_set_time_row_dedup (s : SRocket) (time : ℚ) (sendOk : Bool)
    (hc : s.client = Option.some ()) :
    ((set_time s time sendOk).2 =
        Option.some (floorToU32 (time * s.bps * ROWS_PER_BEAT)) ↔
      floorToU32 (time * s.bps * ROWS_PER_BEAT) ≠ s.tracker_row) ∧
    ((set_time s time sendOk).2 = Option.none ↔
      floorToU32 (time * s.bps * ROWS_PER_BEAT) = s.tracker_row) ∧
    (floorToU32 (time * s.bps * ROWS_PER_BEAT) = s.tracker_row →
      (set_time s time sendOk).1.row = time * s.bps * ROWS_PER_BEAT ∧
      (set_time s time sendOk).1.bps = s.bps ∧
      (set_time s time sendOk).1.tracks = s.tracks ∧
      (set_time s time sendOk).1.tracker_row = s.tracker_row ∧
      (set_time s time sendOk).1.client = s.client) := by
  rw [set_time]
  simp only [hc]
  rcases heq : decide (floorToU32 (time * s.bps * ROWS_PER_BEAT) = s.tracker_row) with - | -
  · have hne : floorToU32 (time * s.bps * ROWS_PER_BEAT) ≠ s.tracker_row :=
      of_decide_eq_false heq
    rw [if_pos hne]
    rcases sendOk with - | -
    · simp [hne]
    · simp [hne]
  · have he : floorToU32 (time * s.bps * ROWS_PER_BEAT) = s.tracker_row :=
      of_decide_eq_true heq
    rw [if_neg (by simp [he])]
    simp [he, hc]

/-- Witness for C8 at bps 1, tracker row 5, time 1 second: the computed row
is 8, which differs from 5, so a SET_ROW for row 8 is handed to the client. -/
theorem c8_witness :
    (⟨1, 0, [], 5, Option.some ()⟩ : SRocket).client = Option.some () ∧
    (set_time ⟨1, 0, [], 5, Option.some ()⟩ 1 true).2 =
      Option.some (floorToU32 ((1 : ℚ) * (1 : ℚ) * ROWS_PER_BEAT)) :=
  ⟨rfl,
    ((c8_set_time_row_dedup ⟨1, 0, [], 5, Option.some ()⟩ 1 true rfl).1).mpr (by
      rw [show floorToU32 ((1 : ℚ) * (1 : ℚ) * ROWS_PER_BEAT) = 8 from by
        rw [show (1 : ℚ) * (1 : ℚ) * ROWS_PER_BEAT = 8 from by norm_num [ROWS_PER_BEAT]]
        rw [floorToU32]
        norm_num
        rfl]
      norm_num)⟩

/-- C9: while the session is disconnected (`client = None`), `get_value`
cannot fail: the disconnected arm is a total function that returns the
fallback 0 when no track with the requested name is known locally, and the
stored value of the local track otherwise. -/
theorem c9_disconnected_fallback (s : SRocket) (name : ℕ)
    (hc : s.client = Option.none) :
    (get_track s.tracks name = Option.none → get_value_disconnected s name = 0) ∧
    (∀ t, get_track s.tracks name = Option.some t →
      get_value_disconnected s name = t.get_value s.row) := by
  constructor
  · intro h
    rw [get_value_disconnected, h]
  · intro t h
    rw [get_value_disconnected, h]

/-- Witness for C9 on a disconnected session with no tracks: every lookup
misses and the fallback 0 is returned. -/
theorem c9_witness :
    (⟨1, 0, [], 0, Option.none⟩ : SRocket).client = Option.none ∧
    (get_track ([] : List (Track ℚ)) 7 = Option.none →
      get_value_disconnected ⟨1, 0, [], 0, Option.none⟩ 7 = 0) ∧
    get_value_disconnected ⟨1, 0, [], 0, Option.none⟩ 7 = 0 :=
  ⟨rfl, (c9_disconnected_fallback ⟨1, 0, [], 0, Option.none⟩ 7 rfl).1,
    (c9_disconnected_fallback ⟨1, 0, [], 0, Option.none⟩ 7 rfl).1 rfl⟩

end Rocket
